import Mathlib

/-!
A verification development for the Fossilize core (`fossilize.hpp`): the
content-addressed registration and dedup store (`StateRecorder`), the canonical
64-bit hashing of creation descriptors (`Fossilize::Hashing`), the serialize /
parse protocol, the dependency-ordered replay dispatch (`StateReplayer::parse`
driving a `StateCreatorInterface`), and the scratch arena allocator
(`ScratchAllocator`).

The public header declares the interfaces; the implementation behind
`StateRecorder::Impl` and `StateReplayer::Impl` is modelled here from the
design document, as noted on each definition. Machine integers are modelled
as `Nat` with explicit reduction modulo `2 ^ 64` where 64-bit overflow
matters.
-/

namespace Fossilize

/-- 64-bit word bound. -/
def W : Nat := 2 ^ 64

/-- `Hash`: 64-bit content fingerprint (`using Hash = uint64_t`). -/
abbrev Hash := Nat

/-- The seven object categories, in the fixed dependency order used by both
the recorder and the replayer (the order of the `set_num_*` /
`enqueue_create_*` members of `StateCreatorInterface`). -/
inductive Category where
  | sampler
  | descriptorSetLayout
  | pipelineLayout
  | shaderModule
  | renderPass
  | computePipeline
  | graphicsPipeline
deriving DecidableEq

/-- Numeric position of a category in the fixed order. -/
def Category.idx : Category → Nat
  | .sampler => 0
  | .descriptorSetLayout => 1
  | .pipelineLayout => 2
  | .shaderModule => 3
  | .renderPass => 4
  | .computePipeline => 5
  | .graphicsPipeline => 6

/-- Decode a category from its numeric tag. -/
def Category.ofIdx : Nat → Option Category
  | 0 => some .sampler
  | 1 => some .descriptorSetLayout
  | 2 => some .pipelineLayout
  | 3 => some .shaderModule
  | 4 => some .renderPass
  | 5 => some .computePipeline
  | 6 => some .graphicsPipeline
  | _ => none

/-- The fixed category order driving serialization and replay. -/
def catOrder : List Category :=
  [.sampler, .descriptorSetLayout, .pipelineLayout, .shaderModule,
   .renderPass, .computePipeline, .graphicsPipeline]

theorem Category.ofIdx_idx (c : Category) : Category.ofIdx c.idx = some c := by
  cases c <;> rfl

theorem Category.mem_catOrder (c : Category) : c ∈ catOrder := by
  cases c <;> simp [catOrder]

/-- Modelled from the spec: a creation descriptor (the missing
`Vk*CreateInfo` handling of `StateRecorder::Impl` / `StateReplayer::Impl`),
abstracted to the shape the design document gives it: scalar fields,
length-prefixed arrays, an ordered extension chain of (type tag, payload)
entries, and cross-object references. A reference pairs the referenced
category with a `Nat` that is read as a runtime handle on the recording side,
as an index inside a serialized record, and as a resolved runtime handle in a
descriptor handed to the creation interface during replay. -/
structure Desc where
  fields : List Nat
  arrays : List (List Nat)
  extensions : List (Nat × List Nat)
  refs : List (Category × Nat)
deriving DecidableEq

/-- Error taxonomy of the design document (§7). -/
inductive Err where
  | formatError
  | unresolvedReference
  | rejectedByConsumer
deriving DecidableEq

/-- Modelled from the spec: the per-category state of `StateRecorder::Impl`:
the records in index order (index = list position), keyed by hash, and the
handle → hash bindings populated by `set_*_handle`. Stored record descriptors
carry their cross-references as (category, index) pairs. -/
structure CatStore where
  records : List (Hash × Desc)
  bindings : List (Nat × Hash)
deriving DecidableEq

/-- The empty category store. -/
def CatStore.empty : CatStore := ⟨[], []⟩

/-- Modelled from the spec: `StateRecorder` (its hidden `Impl`): one store per
category. -/
structure StateRecorder where
  samplers : CatStore
  descriptorSetLayouts : CatStore
  pipelineLayouts : CatStore
  shaderModules : CatStore
  renderPasses : CatStore
  computePipelines : CatStore
  graphicsPipelines : CatStore
deriving DecidableEq

/-- A freshly constructed `StateRecorder`. -/
def StateRecorder.empty : StateRecorder :=
  ⟨.empty, .empty, .empty, .empty, .empty, .empty, .empty⟩

/-- The store of one category. -/
def StateRecorder.store (r : StateRecorder) : Category → CatStore
  | .sampler => r.samplers
  | .descriptorSetLayout => r.descriptorSetLayouts
  | .pipelineLayout => r.pipelineLayouts
  | .shaderModule => r.shaderModules
  | .renderPass => r.renderPasses
  | .computePipeline => r.computePipelines
  | .graphicsPipeline => r.graphicsPipelines

/-- Replace the store of one category. -/
def StateRecorder.setStore (r : StateRecorder) (c : Category) (st : CatStore) :
    StateRecorder :=
  match c with
  | .sampler => { r with samplers := st }
  | .descriptorSetLayout => { r with descriptorSetLayouts := st }
  | .pipelineLayout => { r with pipelineLayouts := st }
  | .shaderModule => { r with shaderModules := st }
  | .renderPass => { r with renderPasses := st }
  | .computePipeline => { r with computePipelines := st }
  | .graphicsPipeline => { r with graphicsPipelines := st }

theorem StateRecorder.store_setStore_same (r : StateRecorder) (c : Category)
    (st : CatStore) : (r.setStore c st).store c = st := by
  cases c <;> rfl

theorem StateRecorder.store_setStore_other (r : StateRecorder) (c c' : Category)
    (st : CatStore) (h : c' ≠ c) : (r.setStore c st).store c' = r.store c' := by
  cases c <;> cases c' <;> first | rfl | exact absurd rfl h

/-- Index of the record with hash `h` (first-registration position). -/
def lookupHash : List (Hash × Desc) → Hash → Option Nat
  | [], _ => none
  | rec :: rest, h =>
    if rec.1 = h then some 0 else (lookupHash rest h).map (· + 1)

/-- Hash bound to a runtime handle, if any. -/
def lookupBinding : List (Nat × Hash) → Nat → Option Hash
  | [], _ => none
  | b :: rest, handle => if b.1 = handle then some b.2 else lookupBinding rest handle

/-- Effectful map over a list, failing on the first failing element. -/
def exMap (g : α → Except Err β) : List α → Except Err (List β)
  | [] => .ok []
  | a :: rest => do
    let b ← g a
    let bs ← exMap g rest
    pure (b :: bs)

/-- Modelled from the spec: reference resolution used while recording: a
runtime handle is taken to the hash bound for it (`bind_handle` data) and then
to the index of the record with that hash; either lookup failing is an
unresolved-reference fault. -/
def StateRecorder.resolveRef (r : StateRecorder) (c : Category) (handle : Nat) :
    Except Err Nat :=
  match lookupBinding (r.store c).bindings handle with
  | none => .error .unresolvedReference
  | some hh =>
    match lookupHash (r.store c).records hh with
    | none => .error .unresolvedReference
    | some i => .ok i

/-- Modelled from the spec: rewrite every cross-object reference of a
recording-side descriptor from a runtime handle to the (category, index) pair
of the already-registered dependency, failing if any is unresolved. -/
def StateRecorder.rewriteRefs (r : StateRecorder) (d : Desc) : Except Err Desc := do
  let refs ← exMap (fun p => do
    let i ← r.resolveRef p.1 p.2
    pure (p.1, i)) d.refs
  pure { d with refs := refs }

/-- Modelled from the spec: `register(category, hash, descriptor)` behind the
seven `StateRecorder::register_*` members: if `hash` is present, return its
existing index with the store untouched; otherwise rewrite the descriptor's
references, append the record, and return the next sequential index. -/
def StateRecorder.register (r : StateRecorder) (c : Category) (h : Hash)
    (d : Desc) : Except Err (Nat × StateRecorder) :=
  let st := r.store c
  match lookupHash st.records h with
  | some i => .ok (i, r)
  | none =>
    match r.rewriteRefs d with
    | .error e => .error e
    | .ok d' =>
      .ok (st.records.length,
        r.setStore c { st with records := st.records ++ [(h, d')] })

/-- Modelled from the spec: `bind_handle(category, index, handle)` behind the
seven `StateRecorder::set_*_handle` members: record the runtime handle
produced for the record at `index`, failing on an out-of-range index. -/
def StateRecorder.bindHandle (r : StateRecorder) (c : Category) (i : Nat)
    (handle : Nat) : Except Err StateRecorder :=
  let st := r.store c
  match st.records[i]? with
  | none => .error .unresolvedReference
  | some rec =>
    .ok (r.setStore c { st with bindings := st.bindings ++ [(handle, rec.1)] })

/-- Modelled from the spec: `hash_for_handle(category, handle)` behind the
seven `StateRecorder::get_hash_for_*` members: lookup, failing if unbound. -/
def StateRecorder.hashForHandle (r : StateRecorder) (c : Category)
    (handle : Nat) : Except Err Hash :=
  match lookupBinding (r.store c).bindings handle with
  | none => .error .unresolvedReference
  | some hh => .ok hh

end Fossilize

namespace Fossilize
namespace Hashing

/-- FNV-1a offset basis. -/
def FNV_OFFSET : Nat := 0xcbf29ce484222325

/-- FNV-1a 64-bit multiplier (odd, hence a unit modulo `2 ^ 64`). -/
def FNV_PRIME : Nat := 0x100000001b3

/-- Modelled from the spec: one step of the fixed, versioned 64-bit combine
function (multiply by the odd constant, reduce modulo `2 ^ 64`, fold the next
word in by exclusive or). -/
def hstep (h x : Nat) : Nat := (h * FNV_PRIME % W) ^^^ (x % W)

/-- Fold a word sequence through the combine function. -/
def fnv (ws : List Nat) : Hash := ws.foldl hstep FNV_OFFSET

/-- The reference-free part of a descriptor's word stream: the field list
(length-prefixed), each array length-prefixed in array order, and each
extension-chain entry in chain order as its type tag and length-prefixed
payload. -/
def bodyWords (d : Desc) : List Nat :=
  (d.fields.length :: d.fields) ++
  (d.arrays.length :: d.arrays.flatMap (fun a => a.length :: a)) ++
  (d.extensions.length ::
    d.extensions.flatMap (fun e => e.1 :: e.2.length :: e.2))

/-- The word stream of a reference list: for each reference in order, the
referenced category tag and the hash the owning store has bound for the
referenced handle — never the raw handle value. An unbound handle is an
unresolved-reference fault. -/
def refWords (r : StateRecorder) (rs : List (Category × Nat)) :
    Except Err (List Nat) :=
  (exMap (fun p =>
    match lookupBinding (r.store p.1).bindings p.2 with
    | none => Except.error Err.unresolvedReference
    | some hh => Except.ok [p.1.idx, hh]) rs).map (fun ws => ws.flatMap id)

/-- Modelled from the spec: the depth-first word stream of a recording-side
descriptor: its reference-free body, then its length-prefixed reference
words. -/
def descWords (r : StateRecorder) (d : Desc) : Except Err (List Nat) :=
  (refWords r d.refs).map (fun rw => bodyWords d ++ (d.refs.length :: rw))

/-- Modelled from the spec: the canonical per-category hash operation behind
the seven `Hashing::compute_hash_*` functions: resolve references through the
store and fold the word stream through the combine function. -/
def computeHash (r : StateRecorder) (d : Desc) : Except Err Hash :=
  (descWords r d).map fnv

end Hashing

/-! ## Blob encoding (§3, §6): a version tag, then for each category in the
fixed order a count and the records' encodings, each record carrying its hash,
its fields, arrays, extension chain and (category, index) references as plain
token sequences. -/

/-- The single supported format version tag. -/
def VERSION : Nat := 1

/-- Length-prefixed word list. -/
def encCtd (xs : List Nat) : List Nat := xs.length :: xs

/-- Length-prefixed array-of-arrays. -/
def encArrays (as : List (List Nat)) : List Nat :=
  as.length :: as.flatMap encCtd

/-- Length-prefixed extension chain: each entry is its type tag then its
length-prefixed payload. -/
def encExts (es : List (Nat × List Nat)) : List Nat :=
  es.length :: es.flatMap (fun e => e.1 :: encCtd e.2)

/-- Length-prefixed reference list: each reference is the category tag and the
record index inside that category. -/
def encRefs (rs : List (Category × Nat)) : List Nat :=
  rs.length :: rs.flatMap (fun p => [p.1.idx, p.2])

/-- One serialized record: its hash, then the descriptor. -/
def encodeRecord (rec : Hash × Desc) : List Nat :=
  rec.1 :: (encCtd rec.2.fields ++ encArrays rec.2.arrays ++
    encExts rec.2.extensions ++ encRefs rec.2.refs)

/-- One serialized category section: record count, then the records in index
order. -/
def encodeSection (recs : List (Hash × Desc)) : List Nat :=
  recs.length :: recs.flatMap encodeRecord

/-- Modelled from the spec: `StateRecorder::serialize()`: the version tag,
then every category section in the fixed category order, each honoring
per-category insertion order. Handle bindings are not part of the blob. -/
def StateRecorder.serialize (r : StateRecorder) : List Nat :=
  VERSION :: catOrder.flatMap (fun c => encodeSection (r.store c).records)

/-! ## Blob decoding: strict consuming decoders; running out of tokens is a
format error. -/

/-- Consume one token. -/
def dNat : List Nat → Except Err (Nat × List Nat)
  | [] => .error .formatError
  | t :: rest => .ok (t, rest)

/-- Consume exactly `n` tokens. -/
def dTake : Nat → List Nat → Except Err (List Nat × List Nat)
  | 0, toks => .ok ([], toks)
  | _ + 1, [] => .error .formatError
  | n + 1, t :: rest => do
    let (xs, rem) ← dTake n rest
    pure (t :: xs, rem)

/-- Consume a length-prefixed word list. -/
def dCtd (toks : List Nat) : Except Err (List Nat × List Nat) := do
  let (n, rest) ← dNat toks
  dTake n rest

/-- Run a decoder exactly `n` times. -/
def dRep (f : List Nat → Except Err (α × List Nat)) :
    Nat → List Nat → Except Err (List α × List Nat)
  | 0, toks => .ok ([], toks)
  | n + 1, toks => do
    let (x, rest) ← f toks
    let (xs, rem) ← dRep f n rest
    pure (x :: xs, rem)

/-- Consume a length-prefixed array-of-arrays. -/
def dArrays (toks : List Nat) : Except Err (List (List Nat) × List Nat) := do
  let (n, rest) ← dNat toks
  dRep dCtd n rest

/-- Consume one extension-chain entry. -/
def dExt (toks : List Nat) : Except Err ((Nat × List Nat) × List Nat) := do
  let (tag, rest) ← dNat toks
  let (payload, rem) ← dCtd rest
  pure ((tag, payload), rem)

/-- Consume a length-prefixed extension chain. -/
def dExts (toks : List Nat) : Except Err (List (Nat × List Nat) × List Nat) := do
  let (n, rest) ← dNat toks
  dRep dExt n rest

/-- Consume one reference: a category tag (an unrecognized tag is a format
error) and an index. -/
def dRef (toks : List Nat) : Except Err ((Category × Nat) × List Nat) := do
  let (tag, rest) ← dNat toks
  match Category.ofIdx tag with
  | none => Except.error Err.formatError
  | some c => do
    let (i, rem) ← dNat rest
    pure ((c, i), rem)

/-- Consume a length-prefixed reference list. -/
def dRefs (toks : List Nat) : Except Err (List (Category × Nat) × List Nat) := do
  let (n, rest) ← dNat toks
  dRep dRef n rest

/-- Consume one serialized record. -/
def decodeRecord (toks : List Nat) : Except Err ((Hash × Desc) × List Nat) := do
  let (h, r0) ← dNat toks
  let (fs, r1) ← dCtd r0
  let (as, r2) ← dArrays r1
  let (es, r3) ← dExts r2
  let (rs, r4) ← dRefs r3
  pure ((h, ⟨fs, as, es, rs⟩), r4)

/-- Consume one category section. -/
def decodeSection (toks : List Nat) :
    Except Err (List (Hash × Desc) × List Nat) := do
  let (n, rest) ← dNat toks
  dRep decodeRecord n rest

/-! ### Round trip: each decoder consumes exactly what the matching encoder
produced, leaving the tail untouched. -/

@[simp] theorem okBind {ε : Type u} {α β : Type v} (a : α) (f : α → Except ε β) :
    (Except.ok a : Except ε α) >>= f = f a := rfl

@[simp] theorem errBind {ε : Type u} {α β : Type v} (e : ε) (f : α → Except ε β) :
    (Except.error e : Except ε α) >>= f = Except.error e := rfl

@[simp] theorem pureExcept {ε : Type u} {α : Type v} (a : α) :
    (pure a : Except ε α) = Except.ok a := rfl

theorem dTake_append (xs rest : List Nat) :
    dTake xs.length (xs ++ rest) = .ok (xs, rest) := by
  induction xs with
  | nil => rfl
  | cons x xs ih => simp [dTake, ih]

theorem dCtd_enc (xs rest : List Nat) :
    dCtd (encCtd xs ++ rest) = .ok (xs, rest) := by
  simp [dCtd, encCtd, dNat, dTake_append]

theorem dRep_enc {α : Type} (f : List Nat → Except Err (α × List Nat))
    (enc : α → List Nat) (xs : List α) (rest : List Nat)
    (hf : ∀ x t, f (enc x ++ t) = .ok (x, t)) :
    dRep f xs.length (xs.flatMap enc ++ rest) = .ok (xs, rest) := by
  induction xs with
  | nil => rfl
  | cons x xs ih => simp [dRep, hf, ih]

theorem dArrays_enc (as : List (List Nat)) (rest : List Nat) :
    dArrays (encArrays as ++ rest) = .ok (as, rest) := by
  simp [dArrays, encArrays, dNat, dRep_enc dCtd encCtd as rest dCtd_enc]

theorem dExt_enc (e : Nat × List Nat) (rest : List Nat) :
    dExt ((e.1 :: encCtd e.2) ++ rest) = .ok (e, rest) := by
  simp [dExt, dNat, dCtd_enc]

theorem dExts_enc (es : List (Nat × List Nat)) (rest : List Nat) :
    dExts (encExts es ++ rest) = .ok (es, rest) := by
  simp [dExts, encExts, dNat,
    dRep_enc dExt (fun e => e.1 :: encCtd e.2) es rest dExt_enc]

theorem dRef_enc (p : Category × Nat) (rest : List Nat) :
    dRef ([p.1.idx, p.2] ++ rest) = .ok (p, rest) := by
  simp [dRef, dNat, Category.ofIdx_idx]

theorem dRefs_enc (rs : List (Category × Nat)) (rest : List Nat) :
    dRefs (encRefs rs ++ rest) = .ok (rs, rest) := by
  simp [dRefs, encRefs, dNat,
    dRep_enc dRef (fun p => [p.1.idx, p.2]) rs rest dRef_enc]

theorem decodeRecord_enc (rec : Hash × Desc) (rest : List Nat) :
    decodeRecord (encodeRecord rec ++ rest) = .ok (rec, rest) := by
  simp [decodeRecord, encodeRecord, dNat, dCtd_enc, dArrays_enc, dExts_enc,
    dRefs_enc]

theorem decodeSection_enc (recs : List (Hash × Desc)) (rest : List Nat) :
    decodeSection (encodeSection recs ++ rest) = .ok (recs, rest) := by
  simp [decodeSection, encodeSection, dNat,
    dRep_enc decodeRecord encodeRecord recs rest decodeRecord_enc]

/-- Decode the sections of a category list, pairing each category with its
records. -/
def decodeCats :
    List Category → List Nat →
    Except Err (List (Category × List (Hash × Desc)) × List Nat)
  | [], toks => .ok ([], toks)
  | c :: cs, toks => do
    let (recs, t1) ← decodeSection toks
    let (rest, t2) ← decodeCats cs t1
    pure ((c, recs) :: rest, t2)

/-- Decode a whole blob: version tag, the seven category sections in fixed
order, and nothing else. -/
def decodeBlob (toks : List Nat) :
    Except Err (List (Category × List (Hash × Desc))) :=
  match toks with
  | [] => .error .formatError
  | v :: rest =>
    if v = VERSION then
      match decodeCats catOrder rest with
      | .error e => .error e
      | .ok (secs, rem) =>
        if rem = [] then .ok secs else .error .formatError
    else .error .formatError

theorem decodeCats_enc (r : StateRecorder) (cs : List Category)
    (rest : List Nat) :
    decodeCats cs (cs.flatMap (fun c => encodeSection (r.store c).records)
      ++ rest) =
    .ok (cs.map (fun c => (c, (r.store c).records)), rest) := by
  induction cs with
  | nil => rfl
  | cons c cs ih => simp [decodeCats, decodeSection_enc, ih]

/-- The serialized blob decodes to exactly the per-category record lists, in
fixed category order, each in insertion (index) order. -/
theorem decodeBlob_serialize (r : StateRecorder) :
    decodeBlob r.serialize =
      .ok (catOrder.map (fun c => (c, (r.store c).records))) := by
  have h := decodeCats_enc r catOrder []
  simp at h
  simp [decodeBlob, StateRecorder.serialize, VERSION, h]

/-! ## Lookup lemmas for the dedup store. -/

theorem lookupHash_append (l₁ l₂ : List (Hash × Desc)) (h : Hash) :
    lookupHash (l₁ ++ l₂) h =
      match lookupHash l₁ h with
      | some i => some i
      | none => (lookupHash l₂ h).map (· + l₁.length) := by
  induction l₁ with
  | nil =>
    simp only [List.nil_append, lookupHash, List.length_nil]
    cases lookupHash l₂ h <;> simp
  | cons rec rest ih =>
    rw [List.cons_append, lookupHash, lookupHash, ih]
    by_cases hr : rec.1 = h
    · simp [hr]
    · simp only [if_neg hr]
      cases lookupHash rest h with
      | some i => simp
      | none => cases lookupHash l₂ h <;> simp [Nat.add_assoc]

theorem lookupHash_none_iff (l : List (Hash × Desc)) (h : Hash) :
    lookupHash l h = none ↔ h ∉ l.map Prod.fst := by
  induction l with
  | nil => simp [lookupHash]
  | cons rec rest ih =>
    by_cases hr : rec.1 = h
    · simp [lookupHash, hr]
    · simp [lookupHash, hr, ih, Ne.symm hr]

theorem lookupHash_nodup_get (l : List (Hash × Desc))
    (hnd : (l.map Prod.fst).Nodup) (j : Nat) (hj : j < l.length) :
    lookupHash l (l[j].1) = some j := by
  induction l generalizing j with
  | nil => simp at hj
  | cons rec rest ih =>
    simp only [List.map_cons, List.nodup_cons] at hnd
    cases j with
    | zero => simp [lookupHash]
    | succ j =>
      have hj' : j < rest.length := by simpa using hj
      have hne : rec.1 ≠ rest[j].1 := by
        intro hcontra
        exact hnd.1 (hcontra ▸ List.mem_map_of_mem Prod.fst (List.getElem_mem hj'))
      simp [lookupHash, hne, ih hnd.2 j hj']

/-! ## Recorder operation sequences. -/

/-- One recorder mutation: a registration or a handle binding. -/
inductive Op where
  | reg (c : Category) (h : Hash) (d : Desc)
  | bindH (c : Category) (i : Nat) (handle : Nat)

/-- Apply one operation; a failed operation leaves the recorder unchanged. -/
def applyOp (r : StateRecorder) : Op → StateRecorder
  | .reg c h d =>
    match r.register c h d with
    | .ok q => q.2
    | .error _ => r
  | .bindH c i handle =>
    match r.bindHandle c i handle with
    | .ok r' => r'
    | .error _ => r

/-- Apply a sequence of operations in order. -/
def applyOps (r : StateRecorder) : List Op → StateRecorder
  | [] => r
  | op :: ops => applyOps (applyOp r op) ops

/-- Every operation only appends to a category's record list. -/
theorem applyOp_records (r : StateRecorder) (op : Op) (c : Category) :
    ∃ tail, ((applyOp r op).store c).records = (r.store c).records ++ tail := by
  cases op with
  | reg c' h d =>
    simp only [applyOp, StateRecorder.register]
    cases hl : lookupHash (r.store c').records h with
    | some i => exact ⟨[], by simp⟩
    | none =>
      cases hrw : r.rewriteRefs d with
      | error e => exact ⟨[], by simp⟩
      | ok d' =>
        by_cases hc : c = c'
        · subst hc
          exact ⟨[(h, d')], by simp [StateRecorder.store_setStore_same]⟩
        · exact ⟨[], by simp [StateRecorder.store_setStore_other _ _ _ _ hc]⟩
  | bindH c' i handle =>
    simp only [applyOp, StateRecorder.bindHandle]
    cases hr : ((r.store c').records)[i]? with
    | none => exact ⟨[], by simp⟩
    | some rec =>
      by_cases hc : c = c'
      · subst hc
        exact ⟨[], by simp [StateRecorder.store_setStore_same]⟩
      · exact ⟨[], by simp [StateRecorder.store_setStore_other _ _ _ _ hc]⟩

/-- A present hash keeps its index under any later operation. -/
theorem applyOp_lookupHash (r : StateRecorder) (op : Op) (c : Category)
    (h : Hash) (i : Nat) (hl : lookupHash (r.store c).records h = some i) :
    lookupHash ((applyOp r op).store c).records h = some i := by
  obtain ⟨tail, ht⟩ := applyOp_records r op c
  rw [ht, lookupHash_append, hl]

/-- A present hash keeps its index under any later operation sequence. -/
theorem applyOps_lookupHash (ops : List Op) (r : StateRecorder) (c : Category)
    (h : Hash) (i : Nat) (hl : lookupHash (r.store c).records h = some i) :
    lookupHash ((applyOps r ops).store c).records h = some i := by
  induction ops generalizing r with
  | nil => exact hl
  | cons op ops ih => exact ih (applyOp r op) (applyOp_lookupHash r op c h i hl)

/-! ### Monotonicity: a successful decode is unaffected by extra trailing
tokens; equivalently, a decode consumes a determined leading slice. This is
what makes a truncated buffer fail: the full buffer's decode would have
consumed past the cut. -/

theorem dNat_mono {toks t : List Nat} {v : Nat} {rem : List Nat}
    (h : dNat toks = .ok (v, rem)) : dNat (toks ++ t) = .ok (v, rem ++ t) := by
  cases toks with
  | nil => exact absurd h (by simp [dNat])
  | cons a rest =>
    simp only [dNat, Except.ok.injEq, Prod.mk.injEq] at h
    simp [dNat, h.1, h.2]

theorem dTake_mono :
    ∀ {n : Nat} {toks t : List Nat} {v rem : List Nat},
      dTake n toks = .ok (v, rem) → dTake n (toks ++ t) = .ok (v, rem ++ t) := by
  intro n
  induction n with
  | zero =>
    intro toks t v rem h
    simp only [dTake, Except.ok.injEq, Prod.mk.injEq] at h
    simp [dTake, h.1, h.2]
  | succ n ih =>
    intro toks t v rem h
    cases toks with
    | nil => exact absurd h (by simp [dTake])
    | cons a rest =>
      simp only [dTake] at h ⊢
      cases hr : dTake n rest with
      | error e => rw [hr] at h; simp at h
      | ok p =>
        obtain ⟨xs, rem'⟩ := p
        rw [hr] at h
        simp only [okBind, pureExcept, Except.ok.injEq, Prod.mk.injEq] at h
        have hih : dTake n (List.append rest t) = Except.ok (xs, rem' ++ t) :=
          ih hr
        rw [hih]
        simp [h.1, h.2]

theorem dRep_mono {α : Type} {f : List Nat → Except Err (α × List Nat)}
    (hf : ∀ {toks t : List Nat} {x : α} {rem : List Nat},
      f toks = .ok (x, rem) → f (toks ++ t) = .ok (x, rem ++ t)) :
    ∀ {n : Nat} {toks t : List Nat} {v : List α} {rem : List Nat},
      dRep f n toks = .ok (v, rem) →
      dRep f n (toks ++ t) = .ok (v, rem ++ t) := by
  intro n
  induction n with
  | zero =>
    intro toks t v rem h
    simp only [dRep, Except.ok.injEq, Prod.mk.injEq] at h
    simp [dRep, h.1, h.2]
  | succ n ih =>
    intro toks t v rem h
    simp only [dRep] at h ⊢
    cases hx : f toks with
    | error e => rw [hx] at h; simp at h
    | ok p =>
      obtain ⟨x, rest⟩ := p
      rw [hx] at h
      simp only [okBind] at h
      cases hxs : dRep f n rest with
      | error e => rw [hxs] at h; simp at h
      | ok q =>
        obtain ⟨xs, rem'⟩ := q
        rw [hxs] at h
        simp only [okBind, pureExcept, Except.ok.injEq, Prod.mk.injEq] at h
        rw [hf hx]
        simp only [okBind]
        rw [ih hxs]
        simp [h.1, h.2]

theorem dCtd_mono {toks t : List Nat} {v rem : List Nat}
    (h : dCtd toks = .ok (v, rem)) : dCtd (toks ++ t) = .ok (v, rem ++ t) := by
  unfold dCtd at h ⊢
  cases hn : dNat toks with
  | error e => rw [hn] at h; simp at h
  | ok p =>
    obtain ⟨n, rest⟩ := p
    rw [hn] at h
    simp only [okBind] at h
    rw [dNat_mono hn]
    simp only [okBind]
    exact dTake_mono h

theorem dArrays_mono {toks t : List Nat} {v : List (List Nat)}
    {rem : List Nat} (h : dArrays toks = .ok (v, rem)) :
    dArrays (toks ++ t) = .ok (v, rem ++ t) := by
  unfold dArrays at h ⊢
  cases hn : dNat toks with
  | error e => rw [hn] at h; simp at h
  | ok p =>
    obtain ⟨n, rest⟩ := p
    rw [hn] at h
    simp only [okBind] at h
    rw [dNat_mono hn]
    simp only [okBind]
    exact dRep_mono (fun {a b c d} => dCtd_mono) h

theorem dExt_mono {toks t : List Nat} {v : Nat × List Nat} {rem : List Nat}
    (h : dExt toks = .ok (v, rem)) : dExt (toks ++ t) = .ok (v, rem ++ t) := by
  unfold dExt at h ⊢
  cases hn : dNat toks with
  | error e => rw [hn] at h; simp at h
  | ok p =>
    obtain ⟨tag, rest⟩ := p
    rw [hn] at h
    simp only [okBind] at h
    cases hc : dCtd rest with
    | error e => rw [hc] at h; simp at h
    | ok q =>
      obtain ⟨pl, rem'⟩ := q
      rw [hc] at h
      simp only [okBind, pureExcept, Except.ok.injEq, Prod.mk.injEq] at h
      rw [dNat_mono hn]
      simp only [okBind]
      rw [dCtd_mono hc]
      simp [h.1, h.2]

theorem dExts_mono {toks t : List Nat} {v : List (Nat × List Nat)}
    {rem : List Nat} (h : dExts toks = .ok (v, rem)) :
    dExts (toks ++ t) = .ok (v, rem ++ t) := by
  unfold dExts at h ⊢
  cases hn : dNat toks with
  | error e => rw [hn] at h; simp at h
  | ok p =>
    obtain ⟨n, rest⟩ := p
    rw [hn] at h
    simp only [okBind] at h
    rw [dNat_mono hn]
    simp only [okBind]
    exact dRep_mono (fun {a b c d} => dExt_mono) h

theorem dRef_mono {toks t : List Nat} {v : Category × Nat} {rem : List Nat}
    (h : dRef toks = .ok (v, rem)) : dRef (toks ++ t) = .ok (v, rem ++ t) := by
  unfold dRef at h ⊢
  cases hn : dNat toks with
  | error e => rw [hn] at h; simp at h
  | ok p =>
    obtain ⟨tag, rest⟩ := p
    rw [hn] at h
    simp only [okBind] at h
    cases hcat : Category.ofIdx tag with
    | none => rw [hcat] at h; simp at h
    | some c =>
      rw [hcat] at h
      cases hi : dNat rest with
      | error e => rw [hi] at h; simp at h
      | ok q =>
        obtain ⟨i, rem'⟩ := q
        rw [hi] at h
        simp only [okBind, pureExcept, Except.ok.injEq, Prod.mk.injEq] at h
        rw [dNat_mono hn]
        simp only [okBind]
        rw [hcat, dNat_mono hi]
        simp [h.1, h.2]

theorem dRefs_mono {toks t : List Nat} {v : List (Category × Nat)}
    {rem : List Nat} (h : dRefs toks = .ok (v, rem)) :
    dRefs (toks ++ t) = .ok (v, rem ++ t) := by
  unfold dRefs at h ⊢
  cases hn : dNat toks with
  | error e => rw [hn] at h; simp at h
  | ok p =>
    obtain ⟨n, rest⟩ := p
    rw [hn] at h
    simp only [okBind] at h
    rw [dNat_mono hn]
    simp only [okBind]
    exact dRep_mono (fun {a b c d} => dRef_mono) h

theorem decodeRecord_mono {toks t : List Nat} {v : Hash × Desc}
    {rem : List Nat} (h : decodeRecord toks = .ok (v, rem)) :
    decodeRecord (toks ++ t) = .ok (v, rem ++ t) := by
  unfold decodeRecord at h ⊢
  cases hn : dNat toks with
  | error e => rw [hn] at h; simp at h
  | ok p =>
    obtain ⟨hs, r0⟩ := p
    rw [hn] at h
    simp only [okBind] at h
    cases h1 : dCtd r0 with
    | error e => rw [h1] at h; simp at h
    | ok q1 =>
      obtain ⟨fs, r1⟩ := q1
      rw [h1] at h
      simp only [okBind] at h
      cases h2 : dArrays r1 with
      | error e => rw [h2] at h; simp at h
      | ok q2 =>
        obtain ⟨as, r2⟩ := q2
        rw [h2] at h
        simp only [okBind] at h
        cases h3 : dExts r2 with
        | error e => rw [h3] at h; simp at h
        | ok q3 =>
          obtain ⟨es, r3⟩ := q3
          rw [h3] at h
          simp only [okBind] at h
          cases h4 : dRefs r3 with
          | error e => rw [h4] at h; simp at h
          | ok q4 =>
            obtain ⟨rs, r4⟩ := q4
            rw [h4] at h
            simp only [okBind, pureExcept, Except.ok.injEq, Prod.mk.injEq] at h
            rw [dNat_mono hn]
            simp only [okBind]
            rw [dCtd_mono h1]
            simp only [okBind]
            rw [dArrays_mono h2]
            simp only [okBind]
            rw [dExts_mono h3]
            simp only [okBind]
            rw [dRefs_mono h4]
            simp [h.1, h.2]

theorem decodeSection_mono {toks t : List Nat} {v : List (Hash × Desc)}
    {rem : List Nat} (h : decodeSection toks = .ok (v, rem)) :
    decodeSection (toks ++ t) = .ok (v, rem ++ t) := by
  unfold decodeSection at h ⊢
  cases hn : dNat toks with
  | error e => rw [hn] at h; simp at h
  | ok p =>
    obtain ⟨n, rest⟩ := p
    rw [hn] at h
    simp only [okBind] at h
    rw [dNat_mono hn]
    simp only [okBind]
    exact dRep_mono (fun {a b c d} => decodeRecord_mono) h

/-! ## Replay dispatch (`StateReplayer::parse` driving a
`StateCreatorInterface`). The calls the dispatcher makes into the interface
are recorded as an event trace; output-handle slot reads are traced
explicitly. -/

/-- One observable dispatcher action: a capacity hint (`set_num_*`), a
creation call (`enqueue_create_*`) carrying the decoded, reference-resolved
descriptor, the completion barrier (`wait_enqueue`), or a read of an
output-handle slot done to embed the handle into a later descriptor. -/
inductive Ev where
  | setNum (c : Category) (n : Nat)
  | create (c : Category) (h : Hash) (i : Nat) (d : Desc)
  | barrier
  | readSlot (c : Category) (i : Nat)
deriving DecidableEq

/-- `StateCreatorInterface`, modelled as a caller-supplied state machine over
a caller-chosen state type: the seven capacity hints and seven creation
operations collapse to one category-indexed operation each; creations may
defer filling their output-handle slot, so the dispatcher reads slots through
`readHandle` on the interface state. -/
structure CreatorInterface (σ : Type) where
  setNum : Category → Nat → σ → Bool × σ
  enqueueCreate : Category → Hash → Nat → Desc → σ → Bool × σ
  waitEnqueue : σ → σ
  readHandle : Category → Nat → σ → Nat

/-- From the source: the default implementation of
`StateCreatorInterface::wait_enqueue` has an empty body — it returns
immediately and leaves the interface state untouched. -/
def defaultWaitEnqueue {σ : Type} (s : σ) : σ := s

/-- From the source: the default implementations of the seven
`StateCreatorInterface::set_num_*` capacity hints accept (`return true`)
without touching state. -/
def defaultSetNum {σ : Type} (_ : Category) (_ : Nat) (s : σ) : Bool × σ :=
  (true, s)

/-- Resolve a decoded record's (category, index) references into runtime
handles by reading the corresponding output-handle slots; also returns the
slot-read events in reference order. -/
def resolveDesc {σ : Type} (I : CreatorInterface σ) (s : σ) (d : Desc) :
    Desc × List Ev :=
  ({ d with refs := d.refs.map (fun p => (p.1, I.readHandle p.1 p.2 s)) },
   d.refs.map (fun p => Ev.readSlot p.1 p.2))

/-- Modelled from the spec: dispatch one category's records in ascending
index order: resolve each descriptor's references, invoke the creation
operation with (hash, index, descriptor, slot); a `false` result stops
immediately. -/
def runRecs {σ : Type} (I : CreatorInterface σ) (c : Category) :
    Nat → List (Hash × Desc) → σ → σ × Bool × List Ev
  | _, [], s => (s, true, [])
  | i, rec :: rest, s =>
    let rd := resolveDesc I s rec.2
    let q := I.enqueueCreate c rec.1 i rd.1 s
    if q.1 then
      let k := runRecs I c (i + 1) rest q.2
      (k.1, k.2.1, rd.2 ++ Ev.create c rec.1 i rd.1 :: k.2.2)
    else
      (q.2, false, rd.2 ++ [Ev.create c rec.1 i rd.1])

/-- Does a section contain any cross-object reference? -/
def sectionHasRefs (recs : List (Hash × Desc)) : Bool :=
  recs.any (fun rec => !rec.2.refs.isEmpty)

/-- Modelled from the spec: dispatch one category: if the category's records
reference earlier output-handle slots, first invoke the completion barrier so
every outstanding creation has filled its slot; then announce the capacity
and dispatch the records; a `false` capacity result stops immediately. -/
def runSection {σ : Type} (I : CreatorInterface σ) (c : Category)
    (recs : List (Hash × Desc)) (s : σ) : σ × Bool × List Ev :=
  let s0 := if sectionHasRefs recs then I.waitEnqueue s else s
  let evB : List Ev := if sectionHasRefs recs then [Ev.barrier] else []
  let q := I.setNum c recs.length s0
  if q.1 then
    let k := runRecs I c 0 recs q.2
    (k.1, k.2.1, evB ++ Ev.setNum c recs.length :: k.2.2)
  else
    (q.2, false, evB ++ [Ev.setNum c recs.length])

/-- Modelled from the spec: the per-category loop of `StateReplayer::parse`:
decode each category section in the fixed order (any decode failure is a
format error), dispatch it, abort the whole parse on a rejected capacity hint
or creation, and require the buffer to be fully consumed at the end. -/
def parseCats {σ : Type} (I : CreatorInterface σ) :
    List Category → List Nat → σ → Except Err Unit × σ × List Ev
  | [], toks, s =>
    if toks = [] then (.ok (), s, []) else (.error .formatError, s, [])
  | c :: cs, toks, s =>
    match decodeSection toks with
    | .error _ => (.error .formatError, s, [])
    | .ok (recs, toks') =>
      let k := runSection I c recs s
      if k.2.1 then
        let m := parseCats I cs toks' k.1
        (m.1, m.2.1, k.2.2 ++ m.2.2)
      else
        (.error .rejectedByConsumer, k.1, k.2.2)

/-- Modelled from the spec: `StateReplayer::parse(iface, buffer)`: validate
the leading version tag (a missing or mismatched tag is a format error with
no interface call made), then run the per-category loop. Returns the result,
the final interface state and the trace of interface calls. -/
def parse {σ : Type} (I : CreatorInterface σ) (s : σ) (toks : List Nat) :
    Except Err Unit × σ × List Ev :=
  match toks with
  | [] => (.error .formatError, s, [])
  | v :: rest =>
    if v = VERSION then parseCats I catOrder rest s
    else (.error .formatError, s, [])

/-! ## Mock creation interfaces. -/

/-- Output-handle slot storage of a mock interface: per category and index,
the handle value, once filled. -/
def SlotMap := Category → Nat → Option Nat

/-- All slots unfilled. -/
def noSlots : SlotMap := fun _ _ => none

/-- A synchronous mock interface: every capacity hint accepts, every creation
succeeds and fills its output-handle slot immediately with `f c i`, the
barrier is the default no-op, and unfilled slots read as the sentinel 0. -/
def syncMock (f : Category → Nat → Nat) : CreatorInterface SlotMap where
  setNum := defaultSetNum
  enqueueCreate := fun c _ i _ s =>
    (true, fun c' i' => if c' = c ∧ i' = i then some (f c i) else s c' i')
  waitEnqueue := defaultWaitEnqueue
  readHandle := fun c i s => (s c i).getD 0

/-- A deferring mock interface: creations succeed but do not fill their
output-handle slot, relying on the barrier — which is the default no-op
`wait_enqueue`, so slots are never filled and read as the sentinel 0. -/
def deferMock : CreatorInterface SlotMap where
  setNum := defaultSetNum
  enqueueCreate := fun _ _ _ _ s => (true, s)
  waitEnqueue := defaultWaitEnqueue
  readHandle := fun c i s => (s c i).getD 0

/-! ## Scratch arena allocator (`ScratchAllocator`). Byte memory is modelled
per block as a function from byte index to byte value; `std::vector<uint8_t>`
block storage starts zero-initialized. A plain (non-cleared) allocation's
contents are unspecified, modelled by filling the fresh region with an
arbitrary `junk` byte; a cleared allocation fills it with zero. -/

/-- One growth block: its byte capacity, its bump watermark (`offset`), and
its byte contents. -/
structure Block where
  size : Nat
  offset : Nat
  mem : Nat → Nat

/-- Modelled from the spec: the block list of `ScratchAllocator`; the current
block is the last one. -/
structure ScratchAllocator where
  blocks : List Block

/-- A freshly constructed allocator: no blocks. -/
def ScratchAllocator.init : ScratchAllocator := ⟨[]⟩

/-- Default minimum block size. -/
def DEFAULT_BLOCK : Nat := 64 * 1024

/-- Round `n` up to a multiple of `a`. -/
def alignUp (n a : Nat) : Nat := (n + a - 1) / a * a

/-- Fill `size` bytes starting at `st` with the byte `v`. -/
def writeRange (mem : Nat → Nat) (st size v : Nat) : Nat → Nat :=
  fun k => if st ≤ k ∧ k < st + size then v else mem k

/-- A memory region handed out by the allocator: block index, byte start,
byte length. -/
structure Region where
  blockIdx : Nat
  start : Nat
  size : Nat
deriving DecidableEq

/-- Modelled from the spec: `ScratchAllocator::add_block(minimum_size)` plus
the allocation that follows it: append a zero-initialized block of at least
the default block size, sized to fit the request, and allocate from its
start. -/
def allocFresh (al : ScratchAllocator) (size alignment junk : Nat) :
    Option Region × ScratchAllocator :=
  let bl := max DEFAULT_BLOCK (size + alignment)
  let b : Block := ⟨bl, size, writeRange (fun _ => 0) 0 size junk⟩
  (some ⟨al.blocks.length, 0, size⟩, ⟨al.blocks ++ [b]⟩)

/-- Modelled from the spec: `ScratchAllocator::allocate_raw(size, alignment)`:
a zero-length request returns the null result without allocating; otherwise
bump-allocate from the current block at the aligned watermark, appending a
new block first when the remaining capacity is insufficient. The fresh
region's bytes are set to the unspecified byte `junk`. -/
def ScratchAllocator.allocate_raw (al : ScratchAllocator)
    (size alignment junk : Nat) : Option Region × ScratchAllocator :=
  if size = 0 then (none, al)
  else
    match al.blocks[al.blocks.length - 1]? with
    | some b =>
      if alignUp b.offset alignment + size ≤ b.size then
        let st := alignUp b.offset alignment
        let b' : Block := ⟨b.size, st + size, writeRange b.mem st size junk⟩
        (some ⟨al.blocks.length - 1, st, size⟩,
         ⟨al.blocks.set (al.blocks.length - 1) b'⟩)
      else allocFresh al size alignment junk
    | none => allocFresh al size alignment junk

/-- Modelled from the spec: `ScratchAllocator::allocate_raw_cleared`:
`allocate_raw` followed by zero-filling the returned memory. -/
def ScratchAllocator.allocate_raw_cleared (al : ScratchAllocator)
    (size alignment : Nat) : Option Region × ScratchAllocator :=
  al.allocate_raw size alignment 0

/-- From the source: `ScratchAllocator::allocate_n<T>(count)`: a zero count
returns the null pointer without calling `allocate_raw`; otherwise it
allocates `sizeof(T) * count` bytes at alignment 16. -/
def ScratchAllocator.allocate_n (al : ScratchAllocator)
    (sizeofT count junk : Nat) : Option Region × ScratchAllocator :=
  if count = 0 then (none, al) else al.allocate_raw (sizeofT * count) 16 junk

/-- From the source: `ScratchAllocator::allocate_n_cleared<T>(count)`: a zero
count returns the null pointer; otherwise `allocate_raw_cleared` of
`sizeof(T) * count` bytes at alignment 16. -/
def ScratchAllocator.allocate_n_cleared (al : ScratchAllocator)
    (sizeofT count : Nat) : Option Region × ScratchAllocator :=
  if count = 0 then (none, al) else al.allocate_raw_cleared (sizeofT * count) 16

/-- The bytes of a region. -/
def ScratchAllocator.readRegion (al : ScratchAllocator) (rg : Region) :
    List Nat :=
  match al.blocks[rg.blockIdx]? with
  | none => []
  | some b => (List.range rg.size).map (fun j => b.mem (rg.start + j))

/-- A region previously issued by the allocator: it lies inside an existing
block, entirely below that block's bump watermark. -/
def Issued (al : ScratchAllocator) (rg : Region) : Prop :=
  ∃ b, al.blocks[rg.blockIdx]? = some b ∧ rg.start + rg.size ≤ b.offset

theorem le_alignUp (n a : Nat) (ha : a ≠ 0) : n ≤ alignUp n a := by
  unfold alignUp
  have h2 : (n + a - 1) % a < a := Nat.mod_lt _ (Nat.pos_of_ne_zero ha)
  have hd : (n + a - 1) % a + (n + a - 1) / a * a = n + a - 1 :=
    Nat.mod_add_div' _ _
  generalize hq : (n + a - 1) / a * a = q at hd ⊢
  generalize hr : (n + a - 1) % a = r at hd h2
  omega

/-- A region issued by `allocate_raw` stays `Issued`, and every previously
`Issued` region keeps its exact bytes, across any later allocation. -/
theorem allocate_raw_preserves (al : ScratchAllocator)
    (size alignment junk : Nat) (rg : Region) (halign : alignment ≠ 0)
    (hiss : Issued al rg) :
    Issued (al.allocate_raw size alignment junk).2 rg ∧
    (al.allocate_raw size alignment junk).2.readRegion rg =
      al.readRegion rg := by
  obtain ⟨bb, hbb, hend⟩ := hiss
  have hlt : rg.blockIdx < al.blocks.length :=
    List.getElem?_eq_some.mp hbb |>.1
  have hfresh : Issued ⟨al.blocks ++
        [⟨max DEFAULT_BLOCK (size + alignment), size,
          writeRange (fun _ => 0) 0 size junk⟩]⟩ rg ∧
      ScratchAllocator.readRegion ⟨al.blocks ++
        [⟨max DEFAULT_BLOCK (size + alignment), size,
          writeRange (fun _ => 0) 0 size junk⟩]⟩ rg =
        al.readRegion rg := by
    constructor
    · exact ⟨bb, by rw [List.getElem?_append, if_pos hlt]; exact hbb, hend⟩
    · unfold ScratchAllocator.readRegion
      rw [List.getElem?_append, if_pos hlt]
  unfold ScratchAllocator.allocate_raw
  by_cases hz : size = 0
  · rw [if_pos hz]; exact ⟨⟨bb, hbb, hend⟩, rfl⟩
  rw [if_neg hz]
  cases hlast : al.blocks[al.blocks.length - 1]? with
  | none => exact hfresh
  | some b =>
    dsimp only
    by_cases hfit : alignUp b.offset alignment + size ≤ b.size
    · rw [if_pos hfit]
      by_cases hidx : rg.blockIdx = al.blocks.length - 1
      · have hend' : rg.start + rg.size ≤ b.offset := by
          have hbeq : bb = b := by
            rw [hidx] at hbb; rw [hbb] at hlast; injection hlast
          rw [← hbeq]; exact hend
        have hset : (al.blocks.set (al.blocks.length - 1)
            ⟨b.size, alignUp b.offset alignment + size,
              writeRange b.mem (alignUp b.offset alignment) size junk⟩)[rg.blockIdx]? =
            some ⟨b.size, alignUp b.offset alignment + size,
              writeRange b.mem (alignUp b.offset alignment) size junk⟩ := by
          rw [hidx]
          exact List.getElem?_set_self (by omega)
        have hub : rg.start + rg.size ≤ alignUp b.offset alignment + size :=
          le_trans (le_trans hend' (le_alignUp b.offset alignment halign))
            (Nat.le_add_right _ _)
        have hbb' : al.blocks[rg.blockIdx]? = some b := by
          rw [hidx]; exact hlast
        refine ⟨⟨_, hset, hub⟩, ?_⟩
        unfold ScratchAllocator.readRegion
        simp only [hset, hbb']
        apply List.map_congr_left
        intro j hj
        simp only [List.mem_range] at hj
        have hlow : rg.start + j < alignUp b.offset alignment :=
          lt_of_lt_of_le (by omega)
            (le_trans hend' (le_alignUp b.offset alignment halign))
        have hnot : ¬ (alignUp b.offset alignment ≤ rg.start + j ∧
            rg.start + j < alignUp b.offset alignment + size) := by omega
        simp [writeRange, hnot]
      · have hset : (al.blocks.set (al.blocks.length - 1)
            ⟨b.size, alignUp b.offset alignment + size,
              writeRange b.mem (alignUp b.offset alignment) size junk⟩)[rg.blockIdx]? =
            al.blocks[rg.blockIdx]? :=
          List.getElem?_set_ne (fun h => hidx h.symm)
        exact ⟨⟨bb, by rw [hset]; exact hbb, hend⟩, by
          unfold ScratchAllocator.readRegion; rw [hset]⟩
    · rw [if_neg hfit]; exact hfresh

/-- Allocations whose request does not fit the current block append a new
block. -/
theorem allocate_raw_grows (al : ScratchAllocator) (size alignment junk : Nat)
    (hz : size ≠ 0)
    (hinsuf : ∀ b, al.blocks[al.blocks.length - 1]? = some b →
      b.size < alignUp b.offset alignment + size) :
    (al.allocate_raw size alignment junk).2.blocks.length =
      al.blocks.length + 1 := by
  unfold ScratchAllocator.allocate_raw
  rw [if_neg hz]
  cases hlast : al.blocks[al.blocks.length - 1]? with
  | none => simp [allocFresh]
  | some b =>
    dsimp only
    rw [if_neg (by have := hinsuf b hlast; omega)]
    simp [allocFresh]

/-- The bytes of a freshly returned region are exactly the fill byte: `junk`
for a plain allocation, 0 for a cleared one. -/
theorem allocate_raw_read (al : ScratchAllocator) (size alignment junk : Nat)
    (rg : Region) (al' : ScratchAllocator)
    (hc : al.allocate_raw size alignment junk = (some rg, al')) :
    al'.readRegion rg = List.replicate size junk := by
  have hfresh : ∀ rg' al'',
      allocFresh al size alignment junk = (some rg', al'') →
      al''.readRegion rg' = List.replicate size junk := by
    intro rg' al'' hf
    simp only [allocFresh, Prod.mk.injEq, Option.some.injEq] at hf
    obtain ⟨hrg, hal⟩ := hf
    subst hrg; subst hal
    unfold ScratchAllocator.readRegion
    simp only [List.getElem?_concat_length]
    rw [List.eq_replicate_iff]
    refine ⟨by simp, ?_⟩
    intro x hx
    simp only [List.mem_map, List.mem_range] at hx
    obtain ⟨j, hj, hx⟩ := hx
    simp only [writeRange, Nat.zero_add] at hx
    rw [if_pos (by omega)] at hx
    exact hx.symm
  unfold ScratchAllocator.allocate_raw at hc
  by_cases hz : size = 0
  · rw [if_pos hz] at hc
    exact absurd (congrArg Prod.fst hc) (by simp)
  rw [if_neg hz] at hc
  cases hlast : al.blocks[al.blocks.length - 1]? with
  | none => rw [hlast] at hc; exact hfresh rg al' hc
  | some b =>
    rw [hlast] at hc
    dsimp only at hc
    by_cases hfit : alignUp b.offset alignment + size ≤ b.size
    · rw [if_pos hfit] at hc
      simp only [Prod.mk.injEq, Option.some.injEq] at hc
      obtain ⟨hrg, hal⟩ := hc
      subst hrg; subst hal
      have hlb : al.blocks.length - 1 < al.blocks.length :=
        (List.getElem?_eq_some.mp hlast).1
      unfold ScratchAllocator.readRegion
      simp only [List.getElem?_set_self hlb]
      rw [List.eq_replicate_iff]
      refine ⟨by simp, ?_⟩
      intro x hx
      simp only [List.mem_map, List.mem_range] at hx
      obtain ⟨j, hj, hx⟩ := hx
      simp only [writeRange] at hx
      rw [if_pos (by omega)] at hx
      exact hx.symm
    · rw [if_neg hfit] at hc; exact hfresh rg al' hc

/-- C9. `ScratchAllocator` behavior: a zero-count `allocate_n` and a
zero-length `allocate_raw` request return the null result without touching
the allocator; an allocation that exceeds the current block's remaining
capacity appends exactly one new block and leaves the bytes of every
previously issued region untouched; and a cleared allocation's returned
region reads as all-zero bytes. -/
theorem fossilize_c9_scratch_allocator (al : ScratchAllocator) :
    (∀ sizeofT junk, al.allocate_n sizeofT 0 junk = (none, al)) ∧
    (∀ alignment junk, al.allocate_raw 0 alignment junk = (none, al)) ∧
    (∀ size alignment junk rg, alignment ≠ 0 → size ≠ 0 → Issued al rg →
      (∀ b, al.blocks[al.blocks.length - 1]? = some b →
        b.size < alignUp b.offset alignment + size) →
      (al.allocate_raw size alignment junk).2.blocks.length =
        al.blocks.length + 1 ∧
      (al.allocate_raw size alignment junk).2.readRegion rg =
        al.readRegion rg) ∧
    (∀ size alignment rg al', al.allocate_raw_cleared size alignment =
      (some rg, al') → al'.readRegion rg = List.replicate size 0) := by
  refine ⟨fun sizeofT junk => rfl,
    fun alignment junk => by unfold ScratchAllocator.allocate_raw; simp,
    fun size alignment junk rg halign hz hiss hinsuf =>
      ⟨allocate_raw_grows al size alignment junk hz hinsuf,
       (allocate_raw_preserves al size alignment junk rg halign hiss).2⟩,
    fun size alignment rg al' hc =>
      allocate_raw_read al size alignment 0 rg al' hc⟩

/-! ## Concrete demonstration store: one descriptor-set layout and one
pipeline layout referencing it. -/

/-- A two-record store: descriptor-set layout (hash 20, index 0) and a
pipeline layout (hash 30, index 0) whose record references
(descriptor-set-layout, index 0). -/
def rDemo : StateRecorder :=
  { StateRecorder.empty with
    descriptorSetLayouts := ⟨[(20, ⟨[], [], [], []⟩)], []⟩,
    pipelineLayouts :=
      ⟨[(30, ⟨[], [], [], [(Category.descriptorSetLayout, 0)]⟩)], []⟩ }

/-- Deterministic handle assignment used by the synchronous mock. -/
def hFn : Category → Nat → Nat := fun c i => 100 + 10 * c.idx + i

/-! ## Support lemmas on `exMap`. -/

theorem exMap_congr {g₁ g₂ : α → Except Err β} {l : List α}
    (hg : ∀ a ∈ l, g₁ a = g₂ a) : exMap g₁ l = exMap g₂ l := by
  induction l with
  | nil => rfl
  | cons a rest ih =>
    simp only [exMap, hg a (List.mem_cons_self a rest),
      ih (fun b hb => hg b (List.mem_cons_of_mem a hb))]

theorem exMap_error_of_mem {g : α → Except Err β}
    (hkind : ∀ a e, g a = .error e → e = Err.unresolvedReference)
    {l : List α} {a : α} (hmem : a ∈ l) {e : Err} (ha : g a = .error e) :
    exMap g l = .error .unresolvedReference := by
  induction l with
  | nil => simp at hmem
  | cons b rest ih =>
    cases hmem with
    | head =>
      have he := hkind a e ha
      subst he
      simp [exMap, ha]
    | tail _ hmem' =>
      cases hb : g b with
      | error eb =>
        have heb := hkind b eb hb
        subst heb
        simp [exMap, hb]
      | ok vb => simp [exMap, hb, ih hmem']

/-! ## The fresh-registration normal form. -/

theorem register_fresh {r : StateRecorder} {c : Category} {h : Hash}
    {d : Desc} {i : Nat} {r₁ : StateRecorder}
    (hfresh : lookupHash (r.store c).records h = none)
    (hreg : r.register c h d = .ok (i, r₁)) :
    ∃ d', r.rewriteRefs d = .ok d' ∧ i = (r.store c).records.length ∧
      r₁ = r.setStore c
        ⟨(r.store c).records ++ [(h, d')], (r.store c).bindings⟩ := by
  simp only [StateRecorder.register, hfresh] at hreg
  cases hrw : r.rewriteRefs d with
  | error e => rw [hrw] at hreg; exact absurd hreg (by simp)
  | ok d' =>
    rw [hrw] at hreg
    simp only [Except.ok.injEq, Prod.mk.injEq] at hreg
    exact ⟨d', rfl, hreg.1.symm, hreg.2.symm⟩

theorem register_fresh_bindings {r : StateRecorder} {c : Category} {h : Hash}
    {d : Desc} {i : Nat} {r₁ : StateRecorder}
    (hfresh : lookupHash (r.store c).records h = none)
    (hreg : r.register c h d = .ok (i, r₁)) (c' : Category) :
    (r₁.store c').bindings = (r.store c').bindings := by
  obtain ⟨d', _, _, hr₁⟩ := register_fresh hfresh hreg
  subst hr₁
  by_cases hc : c' = c
  · subst hc; rw [StateRecorder.store_setStore_same]
  · rw [StateRecorder.store_setStore_other _ _ _ _ hc]

/-- Hashes depend only on descriptor content and the stores' handle → hash
bindings, never on anything else in the store. -/
theorem computeHash_congr_bindings {r₁ r₂ : StateRecorder}
    (hb : ∀ c, (r₁.store c).bindings = (r₂.store c).bindings) (d : Desc) :
    Hashing.computeHash r₁ d = Hashing.computeHash r₂ d := by
  unfold Hashing.computeHash Hashing.descWords Hashing.refWords
  rw [exMap_congr (fun p _ => by rw [hb p.1])]

/-- C6 helper: the per-reference resolver only ever fails with an
unresolved-reference fault. -/
theorem refResolver_err (r : StateRecorder) :
    ∀ (p : Category × Nat) (e : Err),
      (match lookupBinding (r.store p.1).bindings p.2 with
       | none => Except.error Err.unresolvedReference
       | some hh => Except.ok [p.1.idx, hh]) = .error e →
      e = Err.unresolvedReference := by
  intro p e hp
  cases hlb : lookupBinding (r.store p.1).bindings p.2 with
  | none => rw [hlb] at hp; injection hp with h2; exact h2.symm
  | some hh => rw [hlb] at hp; exact absurd hp (by simp)

/-- C6. For every category, looking up a hash by a runtime handle that has
not been bound via the corresponding `set_*_handle` operation fails with an
unresolved-reference fault (`get_hash_for_*` / `hash_for_handle`), and
hashing any descriptor that references such an unbound handle fails the same
way; neither ever silently succeeds with a wrong or zero result. -/
theorem fossilize_c6_unbound_handle_fails (r : StateRecorder) (c : Category)
    (handle : Nat)
    (hub : lookupBinding (r.store c).bindings handle = none) :
    r.hashForHandle c handle = .error .unresolvedReference ∧
    ∀ d : Desc, (c, handle) ∈ d.refs →
      Hashing.computeHash r d = .error .unresolvedReference := by
  refine ⟨by simp [StateRecorder.hashForHandle, hub], fun d hmem => ?_⟩
  have hfail :
      (match lookupBinding (r.store (c, handle).1).bindings (c, handle).2 with
       | none => Except.error Err.unresolvedReference
       | some hh => Except.ok [(c, handle).1.idx, hh]) =
        .error Err.unresolvedReference := by
    simp [hub]
  have hex := exMap_error_of_mem (refResolver_err r) hmem hfail
  simp [Hashing.computeHash, Hashing.descWords, Hashing.refWords, hex,
    Except.map]

/-- A handle lookup on a just-bound handle succeeds — contrast case for C6,
showing the lookup is sound after `bind_handle`. -/
theorem hashForHandle_bound (r : StateRecorder) (c : Category) (i : Nat)
    (handle : Nat) (r' : StateRecorder) (rec : Hash × Desc)
    (hrec : (r.store c).records[i]? = some rec)
    (hfree : lookupBinding (r.store c).bindings handle = none)
    (hbind : r.bindHandle c i handle = .ok r') :
    r'.hashForHandle c handle = .ok rec.1 := by
  simp only [StateRecorder.bindHandle, hrec] at hbind
  simp only [Except.ok.injEq] at hbind
  subst hbind
  unfold StateRecorder.hashForHandle
  rw [StateRecorder.store_setStore_same]
  have : ∀ l : List (Nat × Hash), lookupBinding l handle = none →
      lookupBinding (l ++ [(handle, rec.1)]) handle = some rec.1 := by
    intro l
    induction l with
    | nil => intro _; simp [lookupBinding]
    | cons b rest ih =>
      intro hl
      simp only [lookupBinding] at hl
      by_cases hb : b.1 = handle
      · rw [if_pos hb] at hl; exact absurd hl (by simp)
      · rw [if_neg hb] at hl
        simp only [List.cons_append, lookupBinding, if_neg hb]
        exact ih hl
  rw [this _ hfree]

/-- All hash keys distinct within each category — the defining invariant of
the dedup store, established by registration itself. -/
def KeysNodup (r : StateRecorder) : Prop :=
  ∀ c, ((r.store c).records.map Prod.fst).Nodup

/-- Every operation either leaves a category's record list unchanged or
appends one record whose hash was not present. -/
theorem applyOp_records_cases (r : StateRecorder) (op : Op) (c : Category) :
    ((applyOp r op).store c).records = (r.store c).records ∨
    ∃ h d', lookupHash (r.store c).records h = none ∧
      ((applyOp r op).store c).records = (r.store c).records ++ [(h, d')] := by
  cases op with
  | reg c' h d =>
    simp only [applyOp, StateRecorder.register]
    cases hl : lookupHash (r.store c').records h with
    | some i => exact Or.inl (by simp)
    | none =>
      cases hrw : r.rewriteRefs d with
      | error e => exact Or.inl (by simp)
      | ok d' =>
        by_cases hc : c = c'
        · subst hc
          exact Or.inr ⟨h, d', hl, by simp [StateRecorder.store_setStore_same]⟩
        · exact Or.inl (by simp [StateRecorder.store_setStore_other _ _ _ _ hc])
  | bindH c' i handle =>
    simp only [applyOp, StateRecorder.bindHandle]
    cases hr : ((r.store c').records)[i]? with
    | none => exact Or.inl (by simp)
    | some rec =>
      by_cases hc : c = c'
      · subst hc
        exact Or.inl (by simp [StateRecorder.store_setStore_same])
      · exact Or.inl (by simp [StateRecorder.store_setStore_other _ _ _ _ hc])

theorem applyOp_keysNodup (r : StateRecorder) (op : Op) (hnd : KeysNodup r) :
    KeysNodup (applyOp r op) := by
  intro c
  rcases applyOp_records_cases r op c with heq | ⟨h, d', hfresh, heq⟩
  · rw [heq]; exact hnd c
  · rw [heq]
    simp only [List.map_append, List.map_cons, List.map_nil]
    rw [List.nodup_append]
    refine ⟨hnd c, List.nodup_singleton _, ?_⟩
    intro a ha hb
    simp only [List.mem_singleton] at hb
    subst hb
    exact (lookupHash_none_iff _ _).mp hfresh ha

theorem applyOps_keysNodup (ops : List Op) (r : StateRecorder)
    (hnd : KeysNodup r) : KeysNodup (applyOps r ops) := by
  induction ops generalizing r with
  | nil => exact hnd
  | cons op ops ih => exact ih _ (applyOp_keysNodup r op hnd)

/-- C7. Indices are dense and gap-free starting at 0 per category: a first
registration of new content returns the next sequential index for its
category, the hash is recorded at that index, the index remains stable under
any later sequence of registrations and handle bindings, and at any later
point every position below a category's record count is the index of exactly
one registered hash. -/
theorem fossilize_c7_dense_stable_indices (r : StateRecorder) (c : Category)
    (h : Hash) (d : Desc) (i : Nat) (r₁ : StateRecorder) (hnd : KeysNodup r)
    (hfresh : lookupHash (r.store c).records h = none)
    (hreg : r.register c h d = .ok (i, r₁)) :
    i = (r.store c).records.length ∧
    lookupHash (r₁.store c).records h = some i ∧
    (∀ ops, lookupHash ((applyOps r₁ ops).store c).records h = some i) ∧
    (∀ ops c' j, j < ((applyOps r₁ ops).store c').records.length →
      ∃ h', lookupHash ((applyOps r₁ ops).store c').records h' = some j) := by
  obtain ⟨d', hrw, hi, hr₁⟩ := register_fresh hfresh hreg
  have hl₁ : lookupHash (r₁.store c).records h = some i := by
    rw [hr₁, StateRecorder.store_setStore_same]
    simp only [lookupHash_append, hfresh, lookupHash, if_pos rfl]
    simp [hi]
  have hnd₁ : KeysNodup r₁ := by
    intro c''
    by_cases hc : c'' = c
    · rw [hc, hr₁, StateRecorder.store_setStore_same]
      simp only [List.map_append, List.map_cons, List.map_nil]
      rw [List.nodup_append]
      refine ⟨hnd c, List.nodup_singleton _, ?_⟩
      intro a ha hb
      simp only [List.mem_singleton] at hb
      subst hb
      exact (lookupHash_none_iff _ _).mp hfresh ha
    · rw [hr₁, StateRecorder.store_setStore_other _ _ _ _ hc]
      exact hnd c''
  refine ⟨hi, hl₁, fun ops => applyOps_lookupHash ops r₁ c h i hl₁,
    fun ops c' j hj => ?_⟩
  have hnd' := applyOps_keysNodup ops r₁ hnd₁
  exact ⟨(((applyOps r₁ ops).store c').records[j]).1,
    lookupHash_nodup_get _ (hnd' c') j hj⟩

/-- C8. `serialize` is deterministic given the registered records: it depends
only on the per-category record lists (in particular not on handle bindings
and not on any hash-value ordering); the blob consists of the categories in
the fixed order, each section holding that category's records in insertion
(index) order; and a fresh registration appends exactly one record at the end
of its own category's section, leaving all other sections unchanged — the
blob is an append log of the registration sequence. -/
theorem fossilize_c8_deterministic_serialize :
    (∀ r₁ r₂ : StateRecorder,
      (∀ c, (r₁.store c).records = (r₂.store c).records) →
      r₁.serialize = r₂.serialize) ∧
    (∀ r : StateRecorder,
      decodeBlob r.serialize =
        .ok (catOrder.map (fun c => (c, (r.store c).records)))) ∧
    (∀ (r : StateRecorder) (c : Category) (h : Hash) (d : Desc) (i : Nat)
      (r₁ : StateRecorder), lookupHash (r.store c).records h = none →
      r.register c h d = .ok (i, r₁) →
      ∃ d', (r₁.store c).records = (r.store c).records ++ [(h, d')] ∧
        ∀ c', c' ≠ c → (r₁.store c').records = (r.store c').records) := by
  refine ⟨?_, decodeBlob_serialize, ?_⟩
  · intro r₁ r₂ hrec
    unfold StateRecorder.serialize
    have : ∀ cs : List Category,
        cs.flatMap (fun c => encodeSection (r₁.store c).records) =
        cs.flatMap (fun c => encodeSection (r₂.store c).records) := by
      intro cs
      induction cs with
      | nil => rfl
      | cons c cs ih => simp [ih, hrec c]
    rw [this]
  · intro r c h d i r₁ hfresh hreg
    obtain ⟨d', hrw, hi, hr₁⟩ := register_fresh hfresh hreg
    subst hr₁
    exact ⟨d', by rw [StateRecorder.store_setStore_same],
      fun c' hc => by rw [StateRecorder.store_setStore_other _ _ _ _ hc]⟩

/-- C2. Registering byte-identical content twice in the same category returns
the same index both times and makes no second copy (the second call returns
the identical recorder state); the content's canonical hash is unaffected by
the first registration (so the caller passes the same hash both times); and
the serialized blob contains exactly one encoded record for that content. -/
theorem fossilize_c2_dedup_idempotent (r : StateRecorder) (c : Category)
    (h : Hash) (d : Desc) (i : Nat) (r₁ : StateRecorder)
    (hfresh : lookupHash (r.store c).records h = none)
    (hreg : r.register c h d = .ok (i, r₁)) :
    r₁.register c h d = .ok (i, r₁) ∧
    Hashing.computeHash r₁ d = Hashing.computeHash r d ∧
    decodeBlob r₁.serialize =
      .ok (catOrder.map (fun c' => (c', (r₁.store c').records))) ∧
    ((r₁.store c).records.countP (fun rec => rec.1 == h)) = 1 := by
  obtain ⟨d', hrw, hi, hr₁⟩ := register_fresh hfresh hreg
  have hbind := register_fresh_bindings hfresh hreg
  refine ⟨?_, computeHash_congr_bindings hbind d, decodeBlob_serialize r₁, ?_⟩
  · subst hr₁
    unfold StateRecorder.register
    rw [StateRecorder.store_setStore_same]
    simp only [lookupHash_append, hfresh, lookupHash, if_pos rfl]
    simp [hi]
  · subst hr₁
    rw [StateRecorder.store_setStore_same]
    simp only [List.countP_append]
    have h0 : (r.store c).records.countP (fun rec => rec.1 == h) = 0 := by
      rw [List.countP_eq_zero]
      intro a ha hcontra
      have ha1 : a.1 = h := by simpa using hcontra
      exact (lookupHash_none_iff _ _).mp hfresh
        (ha1 ▸ List.mem_map_of_mem Prod.fst ha)
    simp [h0, List.countP_cons]

end Fossilize

namespace Fossilize

/-- C10. The default implementation of `StateCreatorInterface::wait_enqueue`
is a no-op returning its state unchanged, so an interface that does not
override it receives no synchronization from the barrier: a creation
interface that defers filling its output-handle slots past the enqueue call
(relying on the barrier) exposes the unfilled sentinel 0 to the dependent
pipeline-layout descriptor, while an interface that fills every slot
synchronously inside the enqueue-create operation exposes the real handle —
so with the default no-op barrier, slots must be filled synchronously for
replay to observe valid handles. -/
theorem fossilize_c10_default_barrier_noop :
    (∀ (σ : Type) (s : σ), defaultWaitEnqueue s = s) ∧
    (parse deferMock noSlots rDemo.serialize).2.2 =
      [Ev.setNum .sampler 0,
       Ev.setNum .descriptorSetLayout 1,
       Ev.create .descriptorSetLayout 20 0 ⟨[], [], [], []⟩,
       Ev.barrier,
       Ev.setNum .pipelineLayout 1,
       Ev.readSlot .descriptorSetLayout 0,
       Ev.create .pipelineLayout 30 0
         ⟨[], [], [], [(.descriptorSetLayout, 0)]⟩,
       Ev.setNum .shaderModule 0,
       Ev.setNum .renderPass 0,
       Ev.setNum .computePipeline 0,
       Ev.setNum .graphicsPipeline 0] ∧
    (parse (syncMock hFn) noSlots rDemo.serialize).2.2 =
      [Ev.setNum .sampler 0,
       Ev.setNum .descriptorSetLayout 1,
       Ev.create .descriptorSetLayout 20 0 ⟨[], [], [], []⟩,
       Ev.barrier,
       Ev.setNum .pipelineLayout 1,
       Ev.readSlot .descriptorSetLayout 0,
       Ev.create .pipelineLayout 30 0
         ⟨[], [], [], [(.descriptorSetLayout, 110)]⟩,
       Ev.setNum .shaderModule 0,
       Ev.setNum .renderPass 0,
       Ev.setNum .computePipeline 0,
       Ev.setNum .graphicsPipeline 0] :=
  ⟨fun _ _ => rfl, by decide, by decide⟩

end Fossilize

namespace Fossilize

/-! ## Content sensitivity of the canonical hash. The combine step is a
bijection of the 64-bit state for a fixed input word and a bijection of the
input word for a fixed state, so changing any single word of the depth-first
stream changes the final hash. -/

theorem hstep_lt (h x : Nat) : Hashing.hstep h x < W := by
  unfold Hashing.hstep W
  exact Nat.xor_lt_two_pow (Nat.mod_lt _ (by decide))
    (Nat.mod_lt _ (by decide))

theorem foldl_hstep_lt (ws : List Nat) (h : Nat) (hh : h < W) :
    ws.foldl Hashing.hstep h < W := by
  induction ws generalizing h with
  | nil => exact hh
  | cons x ws ih => exact ih _ (hstep_lt h x)

theorem coprime_W_prime : Nat.Coprime W Hashing.FNV_PRIME := by
  have hodd : Odd Hashing.FNV_PRIME := Nat.odd_iff.mpr (by decide)
  exact Nat.Coprime.pow_left 64 (Nat.coprime_two_left.mpr hodd)

theorem hstep_state_inj (h₁ h₂ x : Nat) (hl₁ : h₁ < W) (hl₂ : h₂ < W)
    (heq : Hashing.hstep h₁ x = Hashing.hstep h₂ x) : h₁ = h₂ := by
  unfold Hashing.hstep at heq
  have hmul : h₁ * Hashing.FNV_PRIME % W = h₂ * Hashing.FNV_PRIME % W := by
    have := congrArg (· ^^^ (x % W)) heq
    simpa [Nat.xor_cancel_right] using this
  have hmod : h₁ ≡ h₂ [MOD W] :=
    Nat.ModEq.cancel_right_of_coprime coprime_W_prime hmul
  calc h₁ = h₁ % W := (Nat.mod_eq_of_lt hl₁).symm
    _ = h₂ % W := hmod
    _ = h₂ := Nat.mod_eq_of_lt hl₂

theorem hstep_word_inj (h x x' : Nat) (hx : x < W) (hx' : x' < W)
    (hne : x ≠ x') : Hashing.hstep h x ≠ Hashing.hstep h x' := by
  unfold Hashing.hstep
  intro heq
  have := congrArg (fun z => (h * Hashing.FNV_PRIME % W) ^^^ z) heq
  have h2 : x % W = x' % W := by
    have h3 := congrArg ((h * Hashing.FNV_PRIME % W) ^^^ ·) heq
    simpa [Nat.xor_cancel_left] using h3
  rw [Nat.mod_eq_of_lt hx, Nat.mod_eq_of_lt hx'] at h2
  exact hne h2

theorem foldl_hstep_state_inj (ws : List Nat) (h₁ h₂ : Nat) (hl₁ : h₁ < W)
    (hl₂ : h₂ < W)
    (heq : ws.foldl Hashing.hstep h₁ = ws.foldl Hashing.hstep h₂) :
    h₁ = h₂ := by
  induction ws generalizing h₁ h₂ with
  | nil => exact heq
  | cons x ws ih =>
    exact hstep_state_inj h₁ h₂ x hl₁ hl₂
      (ih _ _ (hstep_lt h₁ x) (hstep_lt h₂ x) heq)

/-- Mutating a single word of the hashed stream changes the hash. -/
theorem fnv_single_mut (l₁ l₂ : List Nat) (x x' : Nat) (hx : x < W)
    (hx' : x' < W) (hne : x ≠ x') :
    Hashing.fnv (l₁ ++ x :: l₂) ≠ Hashing.fnv (l₁ ++ x' :: l₂) := by
  unfold Hashing.fnv
  rw [List.foldl_append, List.foldl_append]
  intro heq
  have h₀lt : l₁.foldl Hashing.hstep Hashing.FNV_OFFSET < W :=
    foldl_hstep_lt l₁ _ (by decide)
  have hstates := foldl_hstep_state_inj l₂ _ _
    (hstep_lt _ x) (hstep_lt _ x') (by simpa using heq)
  exact hstep_word_inj _ x x' hx hx' hne hstates

/-- Two descriptors whose resolved word streams agree word for word hash
identically; two whose streams differ in a single word hash differently. -/
theorem computeHash_ne_of_stream {r₁ r₂ : StateRecorder} {d₁ d₂ : Desc}
    {rw₁ rw₂ : List Nat} (l₁ l₂ : List Nat) (x x' : Nat)
    (h₁ : Hashing.refWords r₁ d₁.refs = .ok rw₁)
    (h₂ : Hashing.refWords r₂ d₂.refs = .ok rw₂)
    (hs₁ : Hashing.bodyWords d₁ ++ d₁.refs.length :: rw₁ = l₁ ++ x :: l₂)
    (hs₂ : Hashing.bodyWords d₂ ++ d₂.refs.length :: rw₂ = l₁ ++ x' :: l₂)
    (hx : x < W) (hx' : x' < W) (hne : x ≠ x') :
    Hashing.computeHash r₁ d₁ ≠ Hashing.computeHash r₂ d₂ := by
  unfold Hashing.computeHash Hashing.descWords
  rw [h₁, h₂]
  simp only [Except.map, ne_eq, Except.ok.injEq]
  rw [hs₁, hs₂]
  exact fnv_single_mut l₁ l₂ x x' hx hx' hne

/-- C3 counterexample. The claim "mutating the order of any array's elements
changes the resulting 64-bit hash" fails on the modulo-`2 ^ 64` multiply-xor
combine: for the two 64-bit words 0 and `2 ^ 63`, transposing them inside an
array leaves the hash unchanged (multiplying by the odd constant maps a
top-bit flip to a top-bit flip, and xor then cancels it), so two descriptors
whose only difference is the order of one array's elements hash
identically. -/
theorem fossilize_c3_counterexample :
    Desc.mk [] [[0, 2 ^ 63]] [] [] ≠ Desc.mk [] [[2 ^ 63, 0]] [] [] ∧
    List.Perm [0, 2 ^ 63] [2 ^ 63, 0] ∧
    Hashing.computeHash StateRecorder.empty (Desc.mk [] [[0, 2 ^ 63]] [] []) =
      Hashing.computeHash StateRecorder.empty
        (Desc.mk [] [[2 ^ 63, 0]] [] []) :=
  ⟨by decide, by decide, rfl⟩

/-- C3 (amended). The per-category hash is content-sensitive word for word:
it is unchanged when nothing is mutated (it depends only on descriptor
content and the stores' handle → hash bindings); mutating any single scalar
field, any single array element in place, any extension entry's type tag, any
single extension payload word, or the resolved hash of any referenced
dependency changes the resulting 64-bit hash (words taken modulo `2 ^ 64`);
and a dependent descriptor's hash incorporates only the referenced
dependencies' hashes, never the raw handle values. Reordering an array's
elements is not always hash-changing (see the counterexample), which is the
one part of the original claim that fails. -/
theorem fossilize_c3_amended :
    (∀ r₁ r₂ : StateRecorder,
      (∀ c, (r₁.store c).bindings = (r₂.store c).bindings) →
      ∀ d, Hashing.computeHash r₁ d = Hashing.computeHash r₂ d) ∧
    (∀ (r : StateRecorder) (f₁ f₂ : List Nat) (x x' : Nat)
      (a : List (List Nat)) (e : List (Nat × List Nat))
      (rf : List (Category × Nat)) (rw : List Nat),
      Hashing.refWords r rf = .ok rw → x < W → x' < W → x ≠ x' →
      Hashing.computeHash r ⟨f₁ ++ x :: f₂, a, e, rf⟩ ≠
        Hashing.computeHash r ⟨f₁ ++ x' :: f₂, a, e, rf⟩) ∧
    (∀ (r : StateRecorder) (f : List Nat) (w₁ w₂ : List Nat) (x x' : Nat)
      (a₁ a₂ : List (List Nat)) (e : List (Nat × List Nat))
      (rf : List (Category × Nat)) (rw : List Nat),
      Hashing.refWords r rf = .ok rw → x < W → x' < W → x ≠ x' →
      Hashing.computeHash r ⟨f, a₁ ++ (w₁ ++ x :: w₂) :: a₂, e, rf⟩ ≠
        Hashing.computeHash r ⟨f, a₁ ++ (w₁ ++ x' :: w₂) :: a₂, e, rf⟩) ∧
    (∀ (r : StateRecorder) (f : List Nat) (a : List (List Nat))
      (e₁ e₂ : List (Nat × List Nat)) (t t' : Nat) (pl : List Nat)
      (rf : List (Category × Nat)) (rw : List Nat),
      Hashing.refWords r rf = .ok rw → t < W → t' < W → t ≠ t' →
      Hashing.computeHash r ⟨f, a, e₁ ++ (t, pl) :: e₂, rf⟩ ≠
        Hashing.computeHash r ⟨f, a, e₁ ++ (t', pl) :: e₂, rf⟩) ∧
    (∀ (r : StateRecorder) (f : List Nat) (a : List (List Nat))
      (e₁ e₂ : List (Nat × List Nat)) (t : Nat) (q₁ q₂ : List Nat)
      (x x' : Nat) (rf : List (Category × Nat)) (rw : List Nat),
      Hashing.refWords r rf = .ok rw → x < W → x' < W → x ≠ x' →
      Hashing.computeHash r ⟨f, a, e₁ ++ (t, q₁ ++ x :: q₂) :: e₂, rf⟩ ≠
        Hashing.computeHash r ⟨f, a, e₁ ++ (t, q₁ ++ x' :: q₂) :: e₂, rf⟩) ∧
    (∀ (r₁ r₂ : StateRecorder) (f : List Nat) (a : List (List Nat))
      (e : List (Nat × List Nat)) (rf₁ rf₂ : List (Category × Nat))
      (R₁ R₂ : List Nat) (hh hh' : Nat),
      Hashing.refWords r₁ rf₁ = .ok (R₁ ++ hh :: R₂) →
      Hashing.refWords r₂ rf₂ = .ok (R₁ ++ hh' :: R₂) →
      rf₁.length = rf₂.length → hh < W → hh' < W → hh ≠ hh' →
      Hashing.computeHash r₁ ⟨f, a, e, rf₁⟩ ≠
        Hashing.computeHash r₂ ⟨f, a, e, rf₂⟩) ∧
    (∀ (r₁ r₂ : StateRecorder) (f : List Nat) (a : List (List Nat))
      (e : List (Nat × List Nat)) (rf₁ rf₂ : List (Category × Nat)),
      Hashing.refWords r₁ rf₁ = Hashing.refWords r₂ rf₂ →
      rf₁.length = rf₂.length →
      Hashing.computeHash r₁ ⟨f, a, e, rf₁⟩ =
        Hashing.computeHash r₂ ⟨f, a, e, rf₂⟩) := by
  refine ⟨fun r₁ r₂ hb d => computeHash_congr_bindings hb d,
    ?_, ?_, ?_, ?_, ?_, ?_⟩
  · intro r f₁ f₂ x x' a e rf rw hrw hx hx' hne
    exact computeHash_ne_of_stream
      ((f₁ ++ x :: f₂).length :: f₁)
      (f₂ ++ (a.length :: a.flatMap (fun w => w.length :: w)) ++
        (e.length :: e.flatMap (fun q => q.1 :: q.2.length :: q.2)) ++
        rf.length :: rw)
      x x' hrw hrw
      (by simp [Hashing.bodyWords, List.append_assoc])
      (by simp [Hashing.bodyWords, List.append_assoc])
      hx hx' hne
  · intro r f w₁ w₂ x x' a₁ a₂ e rf rw hrw hx hx' hne
    exact computeHash_ne_of_stream
      ((f.length :: f) ++
        ((a₁ ++ (w₁ ++ x :: w₂) :: a₂).length ::
          (a₁.flatMap (fun w => w.length :: w) ++
            ((w₁ ++ x :: w₂).length :: w₁))))
      (w₂ ++ a₂.flatMap (fun w => w.length :: w) ++
        (e.length :: e.flatMap (fun q => q.1 :: q.2.length :: q.2)) ++
        rf.length :: rw)
      x x' hrw hrw
      (by simp [Hashing.bodyWords, List.append_assoc])
      (by simp [Hashing.bodyWords, List.append_assoc])
      hx hx' hne
  · intro r f a e₁ e₂ t t' pl rf rw hrw ht ht' hne
    exact computeHash_ne_of_stream
      ((f.length :: f) ++ (a.length :: a.flatMap (fun w => w.length :: w)) ++
        ((e₁ ++ (t, pl) :: e₂).length ::
          e₁.flatMap (fun q => q.1 :: q.2.length :: q.2)))
      (pl.length :: pl ++ e₂.flatMap (fun q => q.1 :: q.2.length :: q.2) ++
        rf.length :: rw)
      t t' hrw hrw
      (by simp [Hashing.bodyWords, List.append_assoc])
      (by simp [Hashing.bodyWords, List.append_assoc])
      ht ht' hne
  · intro r f a e₁ e₂ t q₁ q₂ x x' rf rw hrw hx hx' hne
    exact computeHash_ne_of_stream
      ((f.length :: f) ++ (a.length :: a.flatMap (fun w => w.length :: w)) ++
        ((e₁ ++ (t, q₁ ++ x :: q₂) :: e₂).length ::
          (e₁.flatMap (fun q => q.1 :: q.2.length :: q.2) ++
            (t :: (q₁ ++ x :: q₂).length :: q₁))))
      (q₂ ++ e₂.flatMap (fun q => q.1 :: q.2.length :: q.2) ++
        rf.length :: rw)
      x x' hrw hrw
      (by simp [Hashing.bodyWords, List.append_assoc])
      (by simp [Hashing.bodyWords, List.append_assoc])
      hx hx' hne
  · intro r₁ r₂ f a e rf₁ rf₂ R₁ R₂ hh hh' hrw₁ hrw₂ hlen hb hb' hne
    exact computeHash_ne_of_stream
      (Hashing.bodyWords ⟨f, a, e, rf₁⟩ ++ rf₁.length :: R₁) R₂
      hh hh' hrw₁ hrw₂
      (by simp [List.append_assoc])
      (by simp [Hashing.bodyWords, List.append_assoc, hlen])
      hb hb' hne
  · intro r₁ r₂ f a e rf₁ rf₂ hw hlen
    simp [Hashing.computeHash, Hashing.descWords, hw, hlen,
      Hashing.bodyWords]

theorem fossilize_c3_amended_witness :
    Hashing.computeHash StateRecorder.empty ⟨[] ++ 3 :: [], [], [], []⟩ ≠
      Hashing.computeHash StateRecorder.empty ⟨[] ++ 4 :: [], [], [], []⟩ :=
  fossilize_c3_amended.2.1 StateRecorder.empty [] [] 3 4 [] [] [] []
    rfl (by decide) (by decide) (by decide)

/-! ## Concrete witness data. -/

/-- A small concrete descriptor. -/
def dW : Desc := ⟨[1], [], [], []⟩

/-- The recorder obtained by registering `dW` under hash 42 in the sampler
category of a fresh recorder. -/
def rW : StateRecorder :=
  { StateRecorder.empty with samplers := ⟨[(42, dW)], []⟩ }

/-- `rW` with an extra sampler handle binding; same records. -/
def rWB : StateRecorder :=
  { StateRecorder.empty with samplers := ⟨[(42, dW)], [(9, 42)]⟩ }

theorem fossilize_c2_dedup_idempotent_witness :
    rW.register .sampler 42 dW = .ok (0, rW) ∧
    Hashing.computeHash rW dW = Hashing.computeHash StateRecorder.empty dW ∧
    decodeBlob rW.serialize =
      .ok (catOrder.map (fun c' => (c', (rW.store c').records))) ∧
    ((rW.store .sampler).records.countP (fun rec => rec.1 == 42)) = 1 :=
  fossilize_c2_dedup_idempotent StateRecorder.empty .sampler 42 dW 0 rW
    (by decide) rfl

theorem fossilize_c6_unbound_handle_fails_witness :
    StateRecorder.empty.hashForHandle .sampler 5 =
      .error .unresolvedReference ∧
    ∀ d : Desc, (Category.sampler, 5) ∈ d.refs →
      Hashing.computeHash StateRecorder.empty d =
        .error .unresolvedReference :=
  fossilize_c6_unbound_handle_fails StateRecorder.empty .sampler 5 (by decide)

theorem fossilize_c7_dense_stable_indices_witness :
    0 = (StateRecorder.empty.store .sampler).records.length ∧
    lookupHash ((rW.store .sampler).records) 42 = some 0 ∧
    (∀ ops, lookupHash ((applyOps rW ops).store .sampler).records 42 =
      some 0) ∧
    (∀ ops c' j, j < ((applyOps rW ops).store c').records.length →
      ∃ h', lookupHash ((applyOps rW ops).store c').records h' = some j) :=
  fossilize_c7_dense_stable_indices StateRecorder.empty .sampler 42 dW 0 rW
    (by intro c; cases c <;> decide) (by decide) rfl

theorem fossilize_c8_deterministic_serialize_witness :
    rW.serialize = rWB.serialize ∧
    decodeBlob rW.serialize =
      .ok (catOrder.map (fun c => (c, (rW.store c).records))) ∧
    (∃ d', (rW.store .sampler).records =
        (StateRecorder.empty.store .sampler).records ++ [(42, d')] ∧
      ∀ c', c' ≠ .sampler →
        (rW.store c').records = (StateRecorder.empty.store c').records) :=
  ⟨fossilize_c8_deterministic_serialize.1 rW rWB (by intro c; cases c <;> decide),
   fossilize_c8_deterministic_serialize.2.1 rW,
   fossilize_c8_deterministic_serialize.2.2 StateRecorder.empty .sampler 42 dW
     0 rW (by decide) rfl⟩

/-- The single block of `alW`. -/
def blkW : Block := ⟨65536, 8, writeRange (fun _ => 0) 0 8 5⟩

/-- A concrete allocator holding one 8-byte allocation. -/
def alW : ScratchAllocator := (ScratchAllocator.init.allocate_raw 8 16 5).2

/-- The region issued for that allocation. -/
def rgW : Region := ⟨0, 0, 8⟩

theorem fossilize_c9_scratch_allocator_witness :
    (alW.allocate_n 4 0 7 = (none, alW)) ∧
    (alW.allocate_raw 0 16 7 = (none, alW)) ∧
    ((alW.allocate_raw 70000 16 3).2.blocks.length =
      alW.blocks.length + 1 ∧
     (alW.allocate_raw 70000 16 3).2.readRegion rgW = alW.readRegion rgW) ∧
    ((alW.allocate_raw_cleared 8 16).2.readRegion ⟨0, 16, 8⟩ =
      List.replicate 8 0) :=
  ⟨(fossilize_c9_scratch_allocator alW).1 4 7,
   (fossilize_c9_scratch_allocator alW).2.1 16 7,
   (fossilize_c9_scratch_allocator alW).2.2.1 70000 16 3 rgW (by decide)
     (by decide) ⟨blkW, rfl, by decide⟩
     (by
       intro b hb
       rw [show alW.blocks[alW.blocks.length - 1]? = some blkW from rfl] at hb
       injection hb with hbb
       subst hbb
       decide),
   (fossilize_c9_scratch_allocator alW).2.2.2 8 16 ⟨0, 16, 8⟩
     (alW.allocate_raw_cleared 8 16).2 rfl⟩

end Fossilize

namespace Fossilize

/-! ## Error handling of the parse path (C5). -/

/-- Events that are direct interface calls with a Boolean result (capacity
hints and creation calls). -/
def Ev.isCall : Ev → Bool
  | Ev.setNum _ _ => true
  | Ev.create _ _ _ _ => true
  | _ => false

theorem runRecs_reject {σ : Type} (I : CreatorInterface σ) (c : Category) :
    ∀ (recs : List (Hash × Desc)) (i : Nat) (s : σ),
      (runRecs I c i recs s).2.1 = false →
      ∃ tr e, (runRecs I c i recs s).2.2 = tr ++ [e] ∧ e.isCall = true := by
  intro recs
  induction recs with
  | nil => intro i s h; simp [runRecs] at h
  | cons rec rest ih =>
    intro i s h
    simp only [runRecs] at h ⊢
    by_cases hb : (I.enqueueCreate c rec.1 i (resolveDesc I s rec.2).1 s).1
    · simp only [hb, if_true] at h ⊢
      obtain ⟨tr, e, htr, he⟩ := ih (i + 1)
        (I.enqueueCreate c rec.1 i (resolveDesc I s rec.2).1 s).2 h
      refine ⟨(resolveDesc I s rec.2).2 ++
        Ev.create c rec.1 i (resolveDesc I s rec.2).1 :: tr, e, ?_, he⟩
      rw [htr]
      simp
    · simp only [hb, if_false] at h ⊢
      exact ⟨(resolveDesc I s rec.2).2,
        Ev.create c rec.1 i (resolveDesc I s rec.2).1, rfl, rfl⟩

theorem runSection_reject {σ : Type} (I : CreatorInterface σ) (c : Category)
    (recs : List (Hash × Desc)) (s : σ)
    (h : (runSection I c recs s).2.1 = false) :
    ∃ tr e, (runSection I c recs s).2.2 = tr ++ [e] ∧ e.isCall = true := by
  simp only [runSection] at h ⊢
  by_cases hs : (I.setNum c recs.length
      (if sectionHasRefs recs then I.waitEnqueue s else s)).1
  · simp only [hs, if_true] at h ⊢
    obtain ⟨tr, e, htr, he⟩ := runRecs_reject I c recs 0
      (I.setNum c recs.length
        (if sectionHasRefs recs then I.waitEnqueue s else s)).2 h
    refine ⟨(if sectionHasRefs recs then [Ev.barrier] else []) ++
      Ev.setNum c recs.length :: tr, e, ?_, he⟩
    rw [htr]
    simp
  · simp only [hs, if_false]
    exact ⟨(if sectionHasRefs recs then [Ev.barrier] else []),
      Ev.setNum c recs.length, rfl, rfl⟩

theorem parseCats_reject {σ : Type} (I : CreatorInterface σ) :
    ∀ (cs : List Category) (toks : List Nat) (s : σ),
      (parseCats I cs toks s).1 = .error .rejectedByConsumer →
      ∃ tr e, (parseCats I cs toks s).2.2 = tr ++ [e] ∧ e.isCall = true := by
  intro cs
  induction cs with
  | nil =>
    intro toks s h
    by_cases ht : toks = [] <;> simp [parseCats, ht] at h
  | cons c cs ih =>
    intro toks s h
    simp only [parseCats] at h ⊢
    cases hd : decodeSection toks with
    | error e => rw [hd] at h; simp at h
    | ok p =>
      obtain ⟨recs, toks'⟩ := p
      rw [hd] at h
      dsimp only at h ⊢
      by_cases hk : (runSection I c recs s).2.1
      · simp only [hk, if_true] at h ⊢
        obtain ⟨tr, e, htr, he⟩ := ih toks' (runSection I c recs s).1 h
        refine ⟨(runSection I c recs s).2.2 ++ tr, e, ?_, he⟩
        rw [htr]
        simp
      · simp only [hk, if_false] at h ⊢
        exact runSection_reject I c recs s (Bool.not_eq_true _ ▸ hk)

theorem parseCats_trunc {σ : Type} (I : CreatorInterface σ) :
    ∀ (cs : List Category) (toks rest : List Nat) (s s' : σ)
      (tr : List Ev), rest ≠ [] →
      parseCats I cs (toks ++ rest) s = (.ok (), s', tr) →
      (parseCats I cs toks s).1 = .error .formatError := by
  intro cs
  induction cs with
  | nil =>
    intro toks rest s s' tr hne h
    simp only [parseCats] at h ⊢
    by_cases ht : toks ++ rest = []
    · exact absurd (List.append_eq_nil.mp ht).2 hne
    · rw [if_neg ht] at h
      exact absurd (congrArg Prod.fst h) (by simp)
  | cons c cs ih =>
    intro toks rest s s' tr hne h
    simp only [parseCats] at h ⊢
    cases hd : decodeSection toks with
    | error e => simp
    | ok p =>
      obtain ⟨recs, toks'⟩ := p
      have hfull : decodeSection (toks ++ rest) = .ok (recs, toks' ++ rest) :=
        decodeSection_mono hd
      rw [hfull] at h
      dsimp only at h ⊢
      by_cases hk : (runSection I c recs s).2.1
      · simp only [hk, if_true] at h ⊢
        have h' : parseCats I cs (toks' ++ rest) (runSection I c recs s).1 =
            (.ok (), s', (parseCats I cs (toks' ++ rest)
              (runSection I c recs s).1).2.2) := by
          have h1 := congrArg Prod.fst h
          have h2 := congrArg (fun z => z.2.1) h
          simp only at h1 h2
          rw [Prod.ext_iff]
          refine ⟨h1, Prod.ext_iff.mpr ⟨h2, rfl⟩⟩
        exact ih toks' rest (runSection I c recs s).1 s' _ hne h'
      · simp only [hk, if_false] at h ⊢
        exact absurd (congrArg Prod.fst h) (by simp)

/-- C5. Error handling of `StateReplayer::parse`: an empty buffer or a wrong
leading version tag fails with a format error before any interface call (the
trace is empty and the interface state untouched); truncating a buffer that
parses successfully makes the parse fail with a format error; and whenever
the parse aborts because a capacity hint or creation call returned `false`,
the rejected call is the last event of the trace — the parse stops
immediately, makes no further interface calls, and performs no
partial-result recovery. -/
theorem fossilize_c5_error_handling {σ : Type} (I : CreatorInterface σ)
    (s : σ) :
    (parse I s ([] : List Nat) = (.error .formatError, s, [])) ∧
    (∀ v toks, v ≠ VERSION →
      parse I s (v :: toks) = (.error .formatError, s, [])) ∧
    (∀ toks s' tr, parse I s toks = (.ok (), s', tr) →
      ∀ k, k < toks.length →
        (parse I s (toks.take k)).1 = .error .formatError) ∧
    (∀ toks res s' tr, parse I s toks = (res, s', tr) →
      res = .error .rejectedByConsumer →
      ∃ tr' e, tr = tr' ++ [e] ∧ e.isCall = true) := by
  refine ⟨rfl, fun v toks hv => by simp [parse, hv], ?_, ?_⟩
  · intro toks s' tr h k hk
    cases toks with
    | nil => simp at hk
    | cons v rest =>
      simp only [parse] at h
      by_cases hv : v = VERSION
      · subst hv
        cases k with
        | zero => simp [parse]
        | succ k =>
          simp only [List.take_succ_cons, parse, if_pos rfl]
          have hsplit : rest = rest.take k ++ rest.drop k :=
            (List.take_append_drop k rest).symm
          have hd : rest.drop k ≠ [] := by
            intro hcon
            have := List.drop_eq_nil_iff.mp hcon
            simp at hk
            omega
          rw [if_pos rfl] at h
          rw [hsplit] at h
          exact parseCats_trunc I catOrder (rest.take k) (rest.drop k) s s'
            tr hd h
      · rw [if_neg hv] at h
        exact absurd (congrArg Prod.fst h) (by simp)
  · intro toks res s' tr h hres
    subst hres
    cases toks with
    | nil =>
      simp only [parse, Prod.mk.injEq] at h
      exact absurd h.1 (by simp)
    | cons v rest =>
      simp only [parse] at h
      by_cases hv : v = VERSION
      · rw [if_pos hv] at h
        have h1 : (parseCats I catOrder rest s).1 =
            .error .rejectedByConsumer := by rw [h]
        obtain ⟨tr', e, htr, he⟩ := parseCats_reject I catOrder rest s h1
        refine ⟨tr', e, ?_, he⟩
        have h2 : (parseCats I catOrder rest s).2.2 = tr := by rw [h]
        rw [← h2, htr]
      · rw [if_neg hv] at h
        exact absurd (congrArg Prod.fst h) (by simp)

end Fossilize

namespace Fossilize

/-- A mock that rejects the descriptor-set-layout capacity hint and accepts
everything else. -/
def rejectMock : CreatorInterface SlotMap where
  setNum := fun c _ s => (decide (c ≠ Category.descriptorSetLayout), s)
  enqueueCreate := fun c _ i _ s =>
    (true, fun c' i' => if c' = c ∧ i' = i then some 7 else s c' i')
  waitEnqueue := defaultWaitEnqueue
  readHandle := fun c i s => (s c i).getD 0

theorem fossilize_c5_error_handling_witness :
    (parse (syncMock hFn) noSlots ([] : List Nat) =
      (.error .formatError, noSlots, [])) ∧
    ((parse (syncMock hFn) noSlots (rDemo.serialize.take 3)).1 =
      .error .formatError) ∧
    (∃ tr' e, (parse rejectMock noSlots rDemo.serialize).2.2 = tr' ++ [e] ∧
      e.isCall = true) :=
  ⟨(fossilize_c5_error_handling (syncMock hFn) noSlots).1,
   (fossilize_c5_error_handling (syncMock hFn) noSlots).2.2.1
     rDemo.serialize (parse (syncMock hFn) noSlots rDemo.serialize).2.1
     (parse (syncMock hFn) noSlots rDemo.serialize).2.2 rfl 3 (by decide),
   (fossilize_c5_error_handling rejectMock noSlots).2.2.2
     rDemo.serialize (parse rejectMock noSlots rDemo.serialize).1
     (parse rejectMock noSlots rDemo.serialize).2.1
     (parse rejectMock noSlots rDemo.serialize).2.2 rfl rfl⟩

end Fossilize

namespace Fossilize

/-! ## Barrier discipline of the dispatcher (C4). Two executable trace
checkers: `scanR` walks the trace keeping the categories whose creations were
enqueued since the last barrier and rejects any output-handle slot read whose
target category still has such an outstanding creation — so a successful scan
means every slot read happens only after a barrier that follows every
creation in the referenced category. `bFlag` rejects any barrier that is not
immediately followed by a capacity hint; a run ending in `some false` also
rules out a trailing barrier — so barriers occur exactly at category
boundaries. -/

/-- Walk a trace, tracking categories with creations pending since the last
barrier; fail on a slot read into a pending category. -/
def scanR : List Ev → List Category → Option (List Category)
  | [], p => some p
  | Ev.barrier :: rest, _ => scanR rest []
  | Ev.create c _ _ _ :: rest, p => scanR rest (c :: p)
  | Ev.readSlot c _ :: rest, p => if c ∈ p then none else scanR rest p
  | Ev.setNum _ _ :: rest, p => scanR rest p

/-- Walk a trace checking barrier placement: a barrier may not follow a
barrier and must be followed by a capacity hint. The flag records whether the
previous event was a barrier; the final flag reports a trailing barrier. -/
def bFlag : List Ev → Bool → Option Bool
  | [], f => some f
  | Ev.barrier :: rest, f => if f then none else bFlag rest true
  | Ev.setNum _ _ :: rest, _ => bFlag rest false
  | _ :: rest, f => if f then none else bFlag rest false

theorem scanR_append (a b : List Ev) (p : List Category) :
    scanR (a ++ b) p = (scanR a p).bind (scanR b) := by
  induction a generalizing p with
  | nil => rfl
  | cons e rest ih =>
    cases e with
    | barrier => simp [scanR, ih]
    | create c h i d => simp [scanR, ih]
    | readSlot c i =>
      by_cases hc : c ∈ p
      · simp [scanR, hc]
      · simp [scanR, hc, ih]
    | setNum c n => simp [scanR, ih]

theorem bFlag_append (a b : List Ev) (f : Bool) :
    bFlag (a ++ b) f = (bFlag a f).bind (fun g => bFlag b g) := by
  induction a generalizing f with
  | nil => rfl
  | cons e rest ih =>
    cases e with
    | barrier => cases f <;> simp [bFlag, ih]
    | create c h i d => cases f <;> simp [bFlag, ih]
    | readSlot c i => cases f <;> simp [bFlag, ih]
    | setNum c n => simp [bFlag, ih]

theorem scanR_reads (c : Category) (rs : List (Category × Nat))
    (p : List Category) (hp : ∀ x ∈ p, x = c)
    (hr : ∀ q ∈ rs, q.1 ≠ c) :
    scanR (rs.map (fun q => Ev.readSlot q.1 q.2)) p = some p := by
  induction rs with
  | nil => rfl
  | cons q rest ih =>
    have hq : q.1 ∉ p := fun hin =>
      hr q (List.mem_cons_self q rest) (hp q.1 hin)
    simp only [List.map_cons, scanR, if_neg hq]
    exact ih (fun q' hq' => hr q' (List.mem_cons_of_mem q hq'))

theorem runRecs_scan {σ : Type} (I : CreatorInterface σ) (c : Category) :
    ∀ (recs : List (Hash × Desc)) (i : Nat) (s : σ) (p : List Category),
      (∀ x ∈ p, x = c) →
      (∀ rec ∈ recs, ∀ q ∈ rec.2.refs, q.1 ≠ c) →
      ∃ p', scanR (runRecs I c i recs s).2.2 p = some p' ∧
        ∀ x ∈ p', x = c := by
  intro recs
  induction recs with
  | nil => intro i s p hp _; exact ⟨p, rfl, hp⟩
  | cons rec rest ih =>
    intro i s p hp hrefs
    have hreads : scanR (resolveDesc I s rec.2).2 p = some p :=
      scanR_reads c rec.2.refs p hp
        (fun q hq => hrefs rec (List.mem_cons_self rec rest) q hq)
    have hp' : ∀ x ∈ c :: p, x = c := by
      intro x hx
      cases hx with
      | head => rfl
      | tail _ h => exact hp x h
    simp only [runRecs]
    cases hb : (I.enqueueCreate c rec.1 i (resolveDesc I s rec.2).1 s).1 with
    | true =>
      rw [if_pos rfl]
      obtain ⟨p', hscan, hall⟩ := ih (i + 1)
        (I.enqueueCreate c rec.1 i (resolveDesc I s rec.2).1 s).2 (c :: p)
        hp' (fun r hr => hrefs r (List.mem_cons_of_mem rec hr))
      refine ⟨p', ?_, hall⟩
      show scanR ((resolveDesc I s rec.2).2 ++
        Ev.create c rec.1 i (resolveDesc I s rec.2).1 ::
          (runRecs I c (i + 1) rest
            (I.enqueueCreate c rec.1 i (resolveDesc I s rec.2).1 s).2).2.2)
        p = some p'
      rw [scanR_append, hreads]
      simpa [scanR] using hscan
    | false =>
      rw [if_neg (by simp)]
      refine ⟨c :: p, ?_, hp'⟩
      show scanR ((resolveDesc I s rec.2).2 ++
        [Ev.create c rec.1 i (resolveDesc I s rec.2).1]) p = some (c :: p)
      rw [scanR_append, hreads]
      simp [scanR]

theorem runRecs_scan_noreads {σ : Type} (I : CreatorInterface σ)
    (c : Category) :
    ∀ (recs : List (Hash × Desc)) (i : Nat) (s : σ) (p : List Category),
      (∀ rec ∈ recs, rec.2.refs = []) →
      ∃ p', scanR (runRecs I c i recs s).2.2 p = some p' := by
  intro recs
  induction recs with
  | nil => intro i s p _; exact ⟨p, rfl⟩
  | cons rec rest ih =>
    intro i s p hrefs
    have hempty : rec.2.refs = [] := hrefs rec (List.mem_cons_self rec rest)
    have hreads : (resolveDesc I s rec.2).2 = [] := by
      simp [resolveDesc, hempty]
    simp only [runRecs]
    cases hb : (I.enqueueCreate c rec.1 i (resolveDesc I s rec.2).1 s).1 with
    | true =>
      rw [if_pos rfl]
      obtain ⟨p', hscan⟩ := ih (i + 1)
        (I.enqueueCreate c rec.1 i (resolveDesc I s rec.2).1 s).2 (c :: p)
        (fun r hr => hrefs r (List.mem_cons_of_mem rec hr))
      refine ⟨p', ?_⟩
      show scanR ((resolveDesc I s rec.2).2 ++
        Ev.create c rec.1 i (resolveDesc I s rec.2).1 ::
          (runRecs I c (i + 1) rest
            (I.enqueueCreate c rec.1 i (resolveDesc I s rec.2).1 s).2).2.2)
        p = some p'
      rw [hreads]
      simpa [scanR] using hscan
    | false =>
      rw [if_neg (by simp)]
      refine ⟨c :: p, ?_⟩
      show scanR ((resolveDesc I s rec.2).2 ++
        [Ev.create c rec.1 i (resolveDesc I s rec.2).1]) p = some (c :: p)
      rw [hreads]
      simp [scanR]

theorem sectionHasRefs_false {recs : List (Hash × Desc)}
    (h : sectionHasRefs recs = false) :
    ∀ rec ∈ recs, rec.2.refs = [] := by
  intro rec hrec
  have := List.any_eq_false.mp h rec hrec
  simpa using this

theorem Category.idx_lt_ne {c c' : Category} (h : c'.idx < c.idx) : c' ≠ c :=
  fun he => absurd (he ▸ h) (lt_irrefl _)

end Fossilize

namespace Fossilize

/-- Trace shape of one dispatched section: the conditional barrier, the
capacity hint, then either nothing (hint rejected) or a record-dispatch
trace. -/
theorem runSection_trace {σ : Type} (I : CreatorInterface σ) (c : Category)
    (recs : List (Hash × Desc)) (s : σ) :
    ∃ tail, ((runSection I c recs s).2.2 =
      (if sectionHasRefs recs then [Ev.barrier] else []) ++
        Ev.setNum c recs.length :: tail) ∧
      (tail = [] ∨ ∃ s0 : σ, tail = (runRecs I c 0 recs s0).2.2) := by
  simp only [runSection]
  cases hs : (I.setNum c recs.length
      (if sectionHasRefs recs then I.waitEnqueue s else s)).1 with
  | true =>
    rw [if_pos rfl]
    exact ⟨_, rfl, Or.inr ⟨_, rfl⟩⟩
  | false =>
    rw [if_neg (by simp)]
    exact ⟨[], rfl, Or.inl rfl⟩

/-- Record dispatch emits no barrier events. -/
theorem runRecs_no_barrier {σ : Type} (I : CreatorInterface σ)
    (c : Category) :
    ∀ (recs : List (Hash × Desc)) (i : Nat) (s : σ),
      ∀ e ∈ (runRecs I c i recs s).2.2, e ≠ Ev.barrier := by
  intro recs
  induction recs with
  | nil => intro i s e he; simp [runRecs] at he
  | cons rec rest ih =>
    intro i s e he
    simp only [runRecs] at he
    have hreads : ∀ e' ∈ (resolveDesc I s rec.2).2, e' ≠ Ev.barrier := by
      intro e' he'
      simp only [resolveDesc, List.mem_map] at he'
      obtain ⟨q, _, hq⟩ := he'
      rw [← hq]
      simp
    cases hb : (I.enqueueCreate c rec.1 i (resolveDesc I s rec.2).1 s).1 with
    | true =>
      rw [if_pos (by rw [hb])] at he
      dsimp only at he
      rw [List.mem_append] at he
      cases he with
      | inl h => exact hreads e h
      | inr h =>
        rw [List.mem_cons] at h
        cases h with
        | inl h => rw [h]; simp
        | inr h => exact ih (i + 1) _ e h
    | false =>
      rw [if_neg (by rw [hb]; simp)] at he
      dsimp only at he
      rw [List.mem_append] at he
      cases he with
      | inl h => exact hreads e h
      | inr h =>
        rw [List.mem_singleton] at h
        rw [h]
        simp
  
/-- A barrier-free trace passes the barrier-placement check. -/
theorem bFlag_no_barrier :
    ∀ (tr : List Ev), (∀ e ∈ tr, e ≠ Ev.barrier) →
      bFlag tr false = some false := by
  intro tr
  induction tr with
  | nil => intro _; rfl
  | cons e rest ih =>
    intro h
    have hrest := fun e' he' => h e' (List.mem_cons_of_mem e he')
    cases e with
    | barrier => exact absurd rfl (h Ev.barrier (List.mem_cons_self _ _))
    | setNum c n => simpa [bFlag] using ih hrest
    | create c hh i d => simpa [bFlag] using ih hrest
    | readSlot c i => simpa [bFlag] using ih hrest

theorem runSection_scan {σ : Type} (I : CreatorInterface σ) (c : Category)
    (recs : List (Hash × Desc)) (s : σ) (p : List Category)
    (hrefs : ∀ rec ∈ recs, ∀ q ∈ rec.2.refs, q.1.idx < c.idx) :
    ∃ p', scanR (runSection I c recs s).2.2 p = some p' := by
  obtain ⟨tail, htr, htail⟩ := runSection_trace I c recs s
  rw [htr]
  cases hhr : sectionHasRefs recs with
  | true =>
    show ∃ p', scanR tail [] = some p'
    cases htail with
    | inl h => rw [h]; exact ⟨[], rfl⟩
    | inr h =>
      obtain ⟨s0, h⟩ := h
      rw [h]
      obtain ⟨p', hscan, _⟩ := runRecs_scan I c recs 0 s0 [] (by simp)
        (fun rec hrec q hq => Category.idx_lt_ne (hrefs rec hrec q hq))
      exact ⟨p', hscan⟩
  | false =>
    show ∃ p', scanR tail p = some p'
    cases htail with
    | inl h => rw [h]; exact ⟨p, rfl⟩
    | inr h =>
      obtain ⟨s0, h⟩ := h
      rw [h]
      exact runRecs_scan_noreads I c recs 0 s0 p
        (sectionHasRefs_false hhr)

theorem runSection_bflag {σ : Type} (I : CreatorInterface σ) (c : Category)
    (recs : List (Hash × Desc)) (s : σ) :
    bFlag (runSection I c recs s).2.2 false = some false := by
  obtain ⟨tail, htr, htail⟩ := runSection_trace I c recs s
  rw [htr]
  have htail' : bFlag tail false = some false := by
    cases htail with
    | inl h => rw [h]; rfl
    | inr h =>
      obtain ⟨s0, h⟩ := h
      rw [h]
      exact bFlag_no_barrier _ (runRecs_no_barrier I c recs 0 s0)
  cases hhr : sectionHasRefs recs with
  | true =>
    show bFlag tail false = some false
    exact htail'
  | false =>
    show bFlag tail false = some false
    exact htail'

/-- Do all references in a decoded section target strictly earlier
categories? -/
def refsEarlier (c : Category) (recs : List (Hash × Desc)) : Bool :=
  recs.all (fun rec => rec.2.refs.all (fun q => decide (q.1.idx < c.idx)))

/-- Check `refsEarlier` for every category section of the stream that
decodes; undecodable sections are irrelevant because the parse stops
there. -/
def checkRefs : List Category → List Nat → Bool
  | [], _ => true
  | c :: cs, toks =>
    match decodeSection toks with
    | .error _ => true
    | .ok (recs, toks') => refsEarlier c recs && checkRefs cs toks'

theorem parseCats_good {σ : Type} (I : CreatorInterface σ) :
    ∀ (cs : List Category) (toks : List Nat) (s : σ) (p : List Category),
      checkRefs cs toks = true →
      (∃ p', scanR (parseCats I cs toks s).2.2 p = some p') ∧
      bFlag (parseCats I cs toks s).2.2 false = some false := by
  intro cs
  induction cs with
  | nil =>
    intro toks s p hchk
    by_cases ht : toks = [] <;> simp [parseCats, ht, scanR, bFlag]
  | cons c cs ih =>
    intro toks s p hchk
    simp only [parseCats]
    simp only [checkRefs] at hchk
    cases hd : decodeSection toks with
    | error e => exact ⟨⟨p, rfl⟩, rfl⟩
    | ok q =>
      obtain ⟨recs, toks'⟩ := q
      rw [hd] at hchk
      dsimp only at hchk ⊢
      rw [Bool.and_eq_true] at hchk
      have hrefs : ∀ rec ∈ recs, ∀ qq ∈ rec.2.refs, qq.1.idx < c.idx := by
        intro rec hrec qq hqq
        have h1 := List.all_eq_true.mp hchk.1 rec hrec
        have h2 := List.all_eq_true.mp h1 qq hqq
        simpa using h2
      cases hk : (runSection I c recs s).2.1 with
      | true =>
        rw [if_pos rfl]
        dsimp only
        constructor
        · obtain ⟨p', hp'⟩ := runSection_scan I c recs s p hrefs
          rw [scanR_append, hp']
          exact (ih toks' (runSection I c recs s).1 p' hchk.2).1
        · rw [bFlag_append, runSection_bflag]
          exact (ih toks' (runSection I c recs s).1 p hchk.2).2
      | false =>
        rw [if_neg (by simp)]
        exact ⟨runSection_scan I c recs s p hrefs,
          runSection_bflag I c recs s⟩

/-- C4. Barrier discipline of the replay dispatcher, for every creation
interface and every buffer whose decodable sections reference only strictly
earlier categories (the store invariant): along the trace of
`StateReplayer::parse`, (a) the dispatcher never reads an output-handle slot
to embed it into a later descriptor while the referenced category has a
creation enqueued since the last `wait_enqueue` — every such read is
separated from every creation in the referenced category by an intervening
barrier call (`scanR` succeeds); and (b) every barrier the dispatcher invokes
sits at a category boundary, immediately before the next category's capacity
hint, so the barrier is invoked at every boundary that precedes a category
referencing the just-completed ones (`bFlag` accepts). -/
theorem fossilize_c4_barrier_discipline {σ : Type} (I : CreatorInterface σ)
    (s : σ) (toks : List Nat) (hchk : checkRefs catOrder toks = true) :
    (scanR (parse I s (VERSION :: toks)).2.2 []).isSome = true ∧
    bFlag (parse I s (VERSION :: toks)).2.2 false = some false := by
  simp only [parse, if_pos rfl]
  obtain ⟨⟨p', hp'⟩, hb⟩ := parseCats_good I catOrder toks s [] hchk
  exact ⟨by simp [hp'], hb⟩

theorem fossilize_c4_barrier_discipline_witness :
    (scanR (parse deferMock noSlots (VERSION ::
      catOrder.flatMap (fun c => encodeSection (rDemo.store c).records))).2.2
      []).isSome = true ∧
    bFlag (parse deferMock noSlots (VERSION ::
      catOrder.flatMap (fun c => encodeSection (rDemo.store c).records))).2.2
      false = some false :=
  fossilize_c4_barrier_discipline deferMock noSlots
    (catOrder.flatMap (fun c => encodeSection (rDemo.store c).records))
    (by decide)

end Fossilize

namespace Fossilize

/-! ## Round trip (C1): parsing a serialized store against a synchronous mock
reproduces, per category in the fixed order, the optional barrier, a capacity
hint carrying the exact original record count, and one creation call per
record in ascending index order, whose descriptor has every (category, index)
reference rewritten to the handle the mock returned for that record. -/

/-- A descriptor with every reference resolved through the mock's handle
assignment. -/
def resolvedDesc (f : Category → Nat → Nat) (d : Desc) : Desc :=
  { d with refs := d.refs.map (fun p => (p.1, f p.1 p.2)) }

/-- Expected per-record events: the slot reads for the references, then the
creation call with the resolved descriptor. -/
def expectedRecs (f : Category → Nat → Nat) (c : Category) :
    Nat → List (Hash × Desc) → List Ev
  | _, [] => []
  | i, rec :: rest =>
    rec.2.refs.map (fun p => Ev.readSlot p.1 p.2) ++
      Ev.create c rec.1 i (resolvedDesc f rec.2) ::
        expectedRecs f c (i + 1) rest

/-- Expected per-section events: the conditional barrier, the capacity hint
with the exact record count, then the per-record events from index 0. -/
def expectedSection (f : Category → Nat → Nat) (c : Category)
    (recs : List (Hash × Desc)) : List Ev :=
  (if sectionHasRefs recs then [Ev.barrier] else []) ++
    Ev.setNum c recs.length :: expectedRecs f c 0 recs

/-- The expected full replay trace of a store. -/
def expectedTrace (f : Category → Nat → Nat) (r : StateRecorder) : List Ev :=
  catOrder.flatMap (fun c => expectedSection f c (r.store c).records)

/-- The slot map has the mock handle for every record of category `c`. -/
def Filled (f : Category → Nat → Nat) (r : StateRecorder) (s : SlotMap)
    (c : Category) : Prop :=
  ∀ i, i < (r.store c).records.length → s c i = some (f c i)

/-- Store well-formedness: every stored reference targets a strictly earlier
category and an index below that category's record count. -/
def Wf (r : StateRecorder) : Prop :=
  ∀ c, ∀ rec ∈ (r.store c).records, ∀ p ∈ rec.2.refs,
    p.1.idx < c.idx ∧ p.2 < (r.store p.1).records.length

theorem runRecs_sync (f : Category → Nat → Nat) (c : Category) :
    ∀ (recs : List (Hash × Desc)) (i : Nat) (s : SlotMap),
      (∀ rec ∈ recs, ∀ p ∈ rec.2.refs,
        p.1 ≠ c ∧ s p.1 p.2 = some (f p.1 p.2)) →
      (runRecs (syncMock f) c i recs s).2.1 = true ∧
      (runRecs (syncMock f) c i recs s).2.2 = expectedRecs f c i recs ∧
      (∀ c' j, c' ≠ c →
        (runRecs (syncMock f) c i recs s).1 c' j = s c' j) ∧
      (∀ j, j < i → (runRecs (syncMock f) c i recs s).1 c j = s c j) ∧
      (∀ j, i ≤ j → j < i + recs.length →
        (runRecs (syncMock f) c i recs s).1 c j = some (f c j)) ∧
      (∀ j, i + recs.length ≤ j →
        (runRecs (syncMock f) c i recs s).1 c j = s c j) := by
  intro recs
  induction recs with
  | nil =>
    intro i s hres
    exact ⟨rfl, rfl, fun c' j _ => rfl, fun j _ => rfl,
      fun j h1 h2 => by simp at h2; omega, fun j _ => rfl⟩
  | cons rec rest ih =>
    intro i s hres
    have hd1 : (resolveDesc (syncMock f) s rec.2).1 = resolvedDesc f rec.2 := by
      simp only [resolveDesc, resolvedDesc]
      congr 1
      apply List.map_congr_left
      intro p hp
      have hsp := (hres rec (List.mem_cons_self rec rest) p hp).2
      show (p.1, ((s p.1 p.2).getD 0)) = (p.1, f p.1 p.2)
      rw [hsp]
      rfl
    have hres1 : ∀ rec' ∈ rest, ∀ p ∈ rec'.2.refs, p.1 ≠ c ∧
        (fun c' i' => if c' = c ∧ i' = i then some (f c i) else s c' i')
          p.1 p.2 = some (f p.1 p.2) := by
      intro rec' hr p hp
      obtain ⟨hne, hsp⟩ := hres rec' (List.mem_cons_of_mem rec hr) p hp
      exact ⟨hne, by
        show (if p.1 = c ∧ p.2 = i then some (f c i) else s p.1 p.2) =
          some (f p.1 p.2)
        rw [if_neg (fun hcon => hne hcon.1)]
        exact hsp⟩
    obtain ⟨hok, htr, hother, hbelow, hin, habove⟩ := ih (i + 1)
      (fun c' i' => if c' = c ∧ i' = i then some (f c i) else s c' i') hres1
    refine ⟨hok, ?_, ?_, ?_, ?_, ?_⟩
    · show (resolveDesc (syncMock f) s rec.2).2 ++
        Ev.create c rec.1 i (resolveDesc (syncMock f) s rec.2).1 ::
          (runRecs (syncMock f) c (i + 1) rest
            (fun c' i' => if c' = c ∧ i' = i then some (f c i)
              else s c' i')).2.2 = expectedRecs f c i (rec :: rest)
      rw [htr, hd1]
      rfl
    · intro c' j hne
      show (runRecs (syncMock f) c (i + 1) rest
        (fun c' i' => if c' = c ∧ i' = i then some (f c i)
          else s c' i')).1 c' j = s c' j
      rw [hother c' j hne]
      exact if_neg (fun hcon => hne hcon.1)
    · intro j hj
      show (runRecs (syncMock f) c (i + 1) rest
        (fun c' i' => if c' = c ∧ i' = i then some (f c i)
          else s c' i')).1 c j = s c j
      rw [hbelow j (by omega)]
      exact if_neg (fun hcon => by obtain ⟨_, h⟩ := hcon; omega)
    · intro j hj1 hj2
      have hj2' : j < i + (rest.length + 1) := by simpa using hj2
      show (runRecs (syncMock f) c (i + 1) rest
        (fun c' i' => if c' = c ∧ i' = i then some (f c i)
          else s c' i')).1 c j = some (f c j)
      by_cases hji : j = i
      · rw [hbelow j (by omega)]
        rw [if_pos ⟨rfl, hji⟩, hji]
      · rw [hin j (by omega) (by omega)]
    · intro j hj
      have hj' : i + (rest.length + 1) ≤ j := by simpa using hj
      show (runRecs (syncMock f) c (i + 1) rest
        (fun c' i' => if c' = c ∧ i' = i then some (f c i)
          else s c' i')).1 c j = s c j
      rw [habove j (by omega)]
      exact if_neg (fun hcon => by obtain ⟨_, h⟩ := hcon; omega)

end Fossilize

namespace Fossilize

theorem runSection_sync (f : Category → Nat → Nat) (c : Category)
    (recs : List (Hash × Desc)) (s : SlotMap)
    (hres : ∀ rec ∈ recs, ∀ p ∈ rec.2.refs,
      p.1 ≠ c ∧ s p.1 p.2 = some (f p.1 p.2)) :
    (runSection (syncMock f) c recs s).2.1 = true ∧
    (runSection (syncMock f) c recs s).2.2 = expectedSection f c recs ∧
    (∀ c' j, c' ≠ c → (runSection (syncMock f) c recs s).1 c' j = s c' j) ∧
    (∀ j, j < recs.length →
      (runSection (syncMock f) c recs s).1 c j = some (f c j)) ∧
    (∀ j, recs.length ≤ j →
      (runSection (syncMock f) c recs s).1 c j = s c j) := by
  obtain ⟨hok, htr, hoth, hbel, hin, hab⟩ := runRecs_sync f c recs 0 s hres
  simp only [runSection, expectedSection]
  cases hhr : sectionHasRefs recs with
  | true =>
    refine ⟨hok, ?_, ?_, ?_, ?_⟩
    · show [Ev.barrier] ++ Ev.setNum c recs.length ::
        (runRecs (syncMock f) c 0 recs s).2.2 =
        [Ev.barrier] ++ Ev.setNum c recs.length :: expectedRecs f c 0 recs
      rw [htr]
    · intro c' j hne
      exact hoth c' j hne
    · intro j hj
      exact hin j (by omega) (by omega)
    · intro j hj
      exact hab j (by omega)
  | false =>
    refine ⟨hok, ?_, ?_, ?_, ?_⟩
    · show ([] : List Ev) ++ Ev.setNum c recs.length ::
        (runRecs (syncMock f) c 0 recs s).2.2 =
        ([] : List Ev) ++ Ev.setNum c recs.length :: expectedRecs f c 0 recs
      rw [htr]
    · intro c' j hne
      exact hoth c' j hne
    · intro j hj
      exact hin j (by omega) (by omega)
    · intro j hj
      exact hab j (by omega)

theorem parseCats_sync (f : Category → Nat → Nat) (r : StateRecorder) :
    ∀ (cs : List Category) (s : SlotMap),
      cs.Pairwise (fun a b => a.idx < b.idx) →
      (∀ c ∈ cs, ∀ rec ∈ (r.store c).records, ∀ p ∈ rec.2.refs,
        p.1.idx < c.idx ∧ p.2 < (r.store p.1).records.length ∧
        (Filled f r s p.1 ∨ p.1 ∈ cs)) →
      ∃ s', parseCats (syncMock f) cs
          (cs.flatMap (fun c => encodeSection (r.store c).records)) s =
        (.ok (), s',
          cs.flatMap (fun c => expectedSection f c (r.store c).records)) ∧
        (∀ c', Filled f r s c' → Filled f r s' c') ∧
        (∀ c ∈ cs, Filled f r s' c) := by
  intro cs
  induction cs with
  | nil =>
    intro s _ _
    exact ⟨s, rfl, fun c' h => h, fun c h => absurd h (by simp)⟩
  | cons c cs ih =>
    intro s hpair hprev
    have hres : ∀ rec ∈ (r.store c).records, ∀ p ∈ rec.2.refs,
        p.1 ≠ c ∧ s p.1 p.2 = some (f p.1 p.2) := by
      intro rec hrec p hp
      obtain ⟨hidx, hcnt, hfill⟩ :=
        hprev c (List.mem_cons_self c cs) rec hrec p hp
      refine ⟨Category.idx_lt_ne hidx, ?_⟩
      cases hfill with
      | inl hf => exact hf p.2 hcnt
      | inr hmem =>
        cases List.mem_cons.mp hmem with
        | inl he => exact absurd (he ▸ hidx) (lt_irrefl _)
        | inr htail =>
          have := (List.pairwise_cons.mp hpair).1 p.1 htail
          omega
    obtain ⟨hok, htr, hoth, hin, hab⟩ :=
      runSection_sync f c (r.store c).records s hres
    have hfill1 : ∀ c', Filled f r s c' →
        Filled f r (runSection (syncMock f) c (r.store c).records s).1 c' := by
      intro c' hf i hi
      by_cases hc : c' = c
      · subst hc
        exact hin i hi
      · rw [hoth c' i hc]
        exact hf i hi
    have hfillc : Filled f r
        (runSection (syncMock f) c (r.store c).records s).1 c :=
      fun i hi => hin i hi
    have hprev' : ∀ c'' ∈ cs, ∀ rec ∈ (r.store c'').records,
        ∀ p ∈ rec.2.refs, p.1.idx < c''.idx ∧
        p.2 < (r.store p.1).records.length ∧
        (Filled f r (runSection (syncMock f) c (r.store c).records s).1 p.1 ∨
          p.1 ∈ cs) := by
      intro c'' hmem rec hrec p hp
      obtain ⟨hidx, hcnt, hfill⟩ :=
        hprev c'' (List.mem_cons_of_mem c hmem) rec hrec p hp
      refine ⟨hidx, hcnt, ?_⟩
      cases hfill with
      | inl hf => exact Or.inl (hfill1 p.1 hf)
      | inr hmem' =>
        cases List.mem_cons.mp hmem' with
        | inl he => exact Or.inl (he ▸ hfillc)
        | inr htail => exact Or.inr htail
    obtain ⟨s', hps, hpres, hfillall⟩ :=
      ih (runSection (syncMock f) c (r.store c).records s).1
        (List.pairwise_cons.mp hpair).2 hprev'
    refine ⟨s', ?_, ?_, ?_⟩
    · rw [List.flatMap_cons, List.flatMap_cons]
      simp only [parseCats]
      rw [decodeSection_enc]
      dsimp only
      rw [hok, if_pos rfl]
      rw [hps, htr]
    · intro c' hf
      exact hpres c' (hfill1 c' hf)
    · intro c0 hc0
      cases List.mem_cons.mp hc0 with
      | inl he => exact he ▸ hpres c hfillc
      | inr htail => exact hfillall c0 htail

/-- C1. Round trip: for every well-formed store (references target strictly
earlier categories at in-range indices) and every handle assignment `f`,
parsing the serialized blob against the synchronous mock interface succeeds
and produces exactly the expected trace: for each category in the fixed
order, the conditional barrier, a capacity hint carrying the exact original
per-category record count, and one creation call per record in ascending
index order whose decoded descriptor has every cross-category reference
rewritten to exactly the handle the interface returned for the referenced,
earlier-processed record. -/
theorem fossilize_c1_round_trip (f : Category → Nat → Nat)
    (r : StateRecorder) (hwf : Wf r) :
    ∃ s', parse (syncMock f) noSlots r.serialize =
      (.ok (), s', expectedTrace f r) := by
  obtain ⟨s', hps, _, _⟩ := parseCats_sync f r catOrder noSlots
    (by decide)
    (by
      intro c hc rec hrec p hp
      obtain ⟨h1, h2⟩ := hwf c rec hrec p hp
      exact ⟨h1, h2, Or.inr (Category.mem_catOrder p.1)⟩)
  exact ⟨s', hps⟩

theorem fossilize_c1_round_trip_witness :
    ∃ s', parse (syncMock hFn) noSlots rDemo.serialize =
      (.ok (), s', expectedTrace hFn rDemo) :=
  fossilize_c1_round_trip hFn rDemo (by intro c; cases c <;> decide)

end Fossilize
